import Mathlib

set_option maxHeartbeats 1000000

/-!
Verification of the PB-file ingestion and versioning pipeline of the
pabulib front-end repository.

The development shallowly embeds, from the Python source:
  * the Python string primitives the pipeline relies on
    (str.strip, str.lower, str.find, slicing) over `List Char` / `String`;
  * `build_group_key` (src/app/utils/pb_utils.py) including a full SHA-1;
  * `parse_pb_lines` (src/app/utils/load_pb_file.py), modelled from the
    point after the csv tokenizer: the input is the list of rows
    (each row a `List String`), a blank line being the empty row;
  * `parse_comments_from_meta` (src/app/utils/pb_utils.py);
  * the tile quality formula (src/app/utils/pb_utils.py line 228),
    with Python floats idealised as real numbers;
  * the admin ingestion route `upload_tiles_ingest` and the delete route
    `admin_delete_file` (src/app/routes_admin.py) as transitions on a
    state holding the pb_files table and the relevant file system paths;
  * the batch refresh job `refresh` / `mark_group_current`
    (src/scripts/db_refresh.py).

Database rows are projected onto the columns the verified claims are
about (identity, path, mtime, ingestion order, currency flags and the
supersession link); display-only columns (budget, description, ...) are
not carried.  Child tables (comments/categories/targets) are outside all
claims and are not modelled.
-/

/-- Python `str.strip()` whitespace set: space, tab, newline, carriage
return, vertical tab, form feed. -/
def pyIsSpace (c : Char) : Bool :=
  c = ' ' || c = '\t' || c = '\n' || c = '\r' || c = Char.ofNat 11 || c = Char.ofNat 12

/-- Strip characters satisfying `p` from both ends of a list
(Python `str.strip(chars)` semantics). -/
def pyStrip (p : Char → Bool) (l : List Char) : List Char :=
  ((l.dropWhile p).reverse.dropWhile p).reverse

/-- Python `s.strip()` on a `String`. -/
def pyStripStr (s : String) : String := String.mk (pyStrip pyIsSpace s.data)

/-- Python `s.lower()`, modelled character-wise. -/
def pyLower (s : String) : String := String.mk (s.data.map Char.toLower)

/-- Python slice `s[:n]` for a non-negative bound `n`. -/
def pySliceTo (s : String) (n : Nat) : String := String.mk (s.data.take n)

/-! SHA-1 (used by `build_group_key` via `hashlib.sha1(...).hexdigest()`),
implemented over `Nat` with explicit reduction mod `2^32`. -/

/-- Modulus for 32-bit words. -/
def M32 : Nat := 4294967296

/-- Left rotation of a 32-bit word. -/
def rotl32 (n x : Nat) : Nat := ((x <<< n) ||| (x >>> (32 - n))) % M32

/-- Bitwise complement of a 32-bit word. -/
def not32 (x : Nat) : Nat := x ^^^ 4294967295

/-- Big-endian bytes of the 64-bit message length. -/
def be64 (n : Nat) : List Nat :=
  (List.range 8).map (fun i => (n >>> (8 * (7 - i))) % 256)

/-- SHA-1 padding: append 0x80, zero bytes to 56 mod 64, then the
bit length as 8 big-endian bytes. -/
def sha1Pad (msg : List Nat) : List Nat :=
  let k := (120 - ((msg.length + 1) % 64)) % 64
  msg ++ [128] ++ List.replicate k 0 ++ be64 (msg.length * 8)

/-- Split a byte list into 64-byte chunks (fuel-driven; the fuel is the
list length, which always suffices). -/
def chunks64 : Nat → List Nat → List (List Nat)
  | 0, _ => []
  | _, [] => []
  | fuel + 1, l => l.take 64 :: chunks64 fuel (l.drop 64)

/-- Sixteen 32-bit big-endian words of a 64-byte chunk. -/
def wordsOf (chunk : List Nat) : List Nat :=
  (List.range 16).map (fun i =>
    ((chunk.drop (4 * i)).take 4).foldl (fun a b => a * 256 + b) 0)

/-- Message-schedule extension of the 16 chunk words to 80 words. -/
def sha1Schedule (ws : List Nat) : List Nat :=
  (List.range 64).foldl
    (fun w _ =>
      let n := w.length
      w ++ [rotl32 1 ((((w.getD (n - 3) 0) ^^^ (w.getD (n - 8) 0)) ^^^
        (w.getD (n - 14) 0)) ^^^ (w.getD (n - 16) 0))])
    ws

/-- One SHA-1 round: state `(a,b,c,d,e)`, round index `i`, word `wi`. -/
def sha1Round (st : Nat × Nat × Nat × Nat × Nat) (i wi : Nat) :
    Nat × Nat × Nat × Nat × Nat :=
  let (a, b, c, d, e) := st
  let f := if i < 20 then (b &&& c) ||| ((not32 b) &&& d)
    else if i < 40 then (b ^^^ c) ^^^ d
    else if i < 60 then ((b &&& c) ||| (b &&& d)) ||| (c &&& d)
    else (b ^^^ c) ^^^ d
  let k := if i < 20 then 1518500249
    else if i < 40 then 1859775393
    else if i < 60 then 2400959708
    else 3395469782
  let temp := ((rotl32 5 a) + f + e + k + wi) % M32
  (temp, a, rotl32 30 b, c, d)

/-- Compression of one 64-byte chunk into the running hash state. -/
def sha1Compress (h : Nat × Nat × Nat × Nat × Nat) (chunk : List Nat) :
    Nat × Nat × Nat × Nat × Nat :=
  let w := sha1Schedule (wordsOf chunk)
  let (a, b, c, d, e) :=
    (List.range 80).foldl (fun st i => sha1Round st i (w.getD i 0)) h
  let (h0, h1, h2, h3, h4) := h
  ((h0 + a) % M32, (h1 + b) % M32, (h2 + c) % M32, (h3 + d) % M32, (h4 + e) % M32)

/-- SHA-1 of a byte list: the five 32-bit state words. -/
def sha1Words (msg : List Nat) : List Nat :=
  let padded := sha1Pad msg
  let s := (chunks64 padded.length padded).foldl sha1Compress
    (1732584193, 4023233417, 2562383102, 271733878, 3285377520)
  [s.1, s.2.1, s.2.2.1, s.2.2.2.1, s.2.2.2.2]

/-- Lower-case hexadecimal digit. -/
def hexDigit (n : Nat) : Char :=
  if n < 10 then Char.ofNat (48 + n) else Char.ofNat (87 + n)

/-- Fixed-width big-endian hexadecimal rendering. -/
def hexFixed : Nat → Nat → List Char
  | _, 0 => []
  | x, w + 1 => hexFixed (x / 16) w ++ [hexDigit (x % 16)]

/-- UTF-8 bytes of a string (Python `s.encode("utf-8")`). -/
def utf8Bytes (s : String) : List Nat := s.toUTF8.toList.map (fun b => b.toNat)

/-- Python `hashlib.sha1(bs).hexdigest()`. -/
def sha1Hexdigest (bs : List Nat) : String :=
  String.mk ((sha1Words bs).foldr (fun wo acc => hexFixed wo 8 ++ acc) [])

/-- Length-bounding step of `build_group_key` (src/app/utils/pb_utils.py
lines 98-110): keys longer than 191 characters are truncated and suffixed
with `_` + the first 12 hex characters of the SHA-1 of the full key. -/
def bgkBound (key : String) : String :=
  if key.length ≤ 191 then key
  else
    let h := pySliceTo (sha1Hexdigest (utf8Bytes key)) 12
    let pfx := pySliceTo key (191 - 1 - h.length)
    pfx ++ "_" ++ h

/-- Embeds `build_group_key` (src/app/utils/pb_utils.py lines 95-110):
normalise the four identity parts (strip, lower) and join with `|`;
then bound the length via `bgkBound`. -/
def build_group_key (country unit inst subunit : String) : String :=
  bgkBound (String.intercalate "|"
    ([country, unit, inst, subunit].map (fun p => pyLower (pyStripStr p))))

theorem pySliceTo_length_le (s : String) (n : Nat) : (pySliceTo s n).length ≤ n := by
  have h : (pySliceTo s n).length = (s.data.take n).length := rfl
  rw [h, List.length_take]
  exact min_le_left _ _

theorem bgkBound_length_le (key : String) : (bgkBound key).length ≤ 191 := by
  unfold bgkBound
  split
  case isTrue h => exact h
  case isFalse h =>
    have h12 : (pySliceTo (sha1Hexdigest (utf8Bytes key)) 12).length ≤ 12 :=
      pySliceTo_length_le _ _
    have hp : (pySliceTo key
        (191 - 1 - (pySliceTo (sha1Hexdigest (utf8Bytes key)) 12).length)).length ≤
        191 - 1 - (pySliceTo (sha1Hexdigest (utf8Bytes key)) 12).length :=
      pySliceTo_length_le _ _
    have hu : ("_" : String).length = 1 := rfl
    simp only [String.length_append]
    omega

/-- C6. Group key determinism and boundedness: `build_group_key` is a
pure function (hence trivially returns the same string for the same
4-tuple on every call), and its result never exceeds 191 characters,
including on inputs whose normalised joined key is longer than 191
characters (where the truncate-and-hash branch is taken). -/
theorem build_group_key_deterministic_and_bounded
    (country unit inst subunit : String) :
    build_group_key country unit inst subunit =
      build_group_key country unit inst subunit ∧
    (build_group_key country unit inst subunit).length ≤ 191 :=
  ⟨rfl, bgkBound_length_le _⟩

/-! Embedding of `parse_pb_lines` (src/app/utils/load_pb_file.py).
The Python function iterates over `csv.reader(...)` rows; the embedding
starts from that row sequence (`List (List String)`, a blank line being
the empty row `[]`).  Python dicts are association lists with
insert-or-replace update and first-match lookup. -/

/-- Python dict update `m[k] = v`: replace the value of an existing key,
otherwise append the binding. -/
def dictInsert {α : Type} (k : String) (v : α) :
    List (String × α) → List (String × α)
  | [] => [(k, v)]
  | (k2, v2) :: rest =>
      if k2 = k then (k, v) :: rest else (k2, v2) :: dictInsert k v rest

/-- Python dict lookup `m.get(k)`. -/
def dictGet {α : Type} : List (String × α) → String → Option α
  | [], _ => none
  | (k2, v) :: rest, k => if k2 = k then some v else dictGet rest k

/-- Python `str(x).strip().lower()` on a row token. -/
def normTok (s : String) : String := pyLower (pyStripStr s)

/-- Parser section state: before any section line, or inside META,
PROJECTS, or VOTES. -/
inductive PBSection
  | start
  | metaS
  | projectsS
  | votesS
deriving DecidableEq, Repr

/-- Zip of `header[1:]` against `row[1:]` (load_pb_file.py lines 53-55 and
65-67): for each header key at position `idx ≥ 1` with `idx < len(row)`,
set `m[key.strip()] = row[idx].strip()`. -/
def rowFieldsGo : List String → Nat → List String →
    List (String × String) → List (String × String)
  | [], _, _, m => m
  | key :: keys, idx, row, m =>
      if idx < row.length then
        rowFieldsGo keys (idx + 1) row
          (dictInsert (pyStripStr key) (pyStripStr (row.getD idx "")) m)
      else rowFieldsGo keys (idx + 1) row m

/-- Sub-map of one PROJECTS/VOTES row given the section header. -/
def rowFields (header row : List String) (init : List (String × String)) :
    List (String × String) :=
  rowFieldsGo (header.drop 1) 1 row init

/-- Mutable state of the `parse_pb_lines` loop. -/
structure ParseSt where
  meta : List (String × String)
  projects : List (String × List (String × String))
  votes : List (String × List (String × String))
  sect : PBSection
  header : List String
  vip : Bool
  sip : Bool
deriving DecidableEq, Repr

/-- Initial parser state (load_pb_file.py lines 7-13). -/
def initParseSt : ParseSt :=
  { meta := [], projects := [], votes := [], sect := PBSection.start,
    header := [], vip := false, sip := false }

/-- Section-line test (load_pb_file.py line 22): the first token,
stripped and lowered, is `meta`, `projects` or `votes`. -/
def sectLineKind (row : List String) : Bool :=
  let first := normTok (row.headD "")
  first = "meta" || first = "projects" || first = "votes"

/-- Section selected by a section line. -/
def sectOf (row : List String) : PBSection :=
  let first := normTok (row.headD "")
  if first = "meta" then PBSection.metaS
  else if first = "projects" then PBSection.projectsS
  else PBSection.votesS

/-- Header validation (load_pb_file.py lines 28-38): a non-empty header of
a PROJECTS (resp. VOTES) section must have first column `project_id`
(resp. `voter_id`) after strip+lower; returns the raised message. -/
def headerCheck (sect : PBSection) (hd : List String) : Option String :=
  if hd ≠ [] ∧ sect = PBSection.projectsS ∧ normTok (hd.headD "") ≠ "project_id" then
    some ("First value in PROJECTS section is not project_id: " ++
      normTok (hd.headD ""))
  else if hd ≠ [] ∧ sect = PBSection.votesS ∧ normTok (hd.headD "") ≠ "voter_id" then
    some ("First value in VOTES section is not voter_id: " ++
      normTok (hd.headD ""))
  else none

/-- META row step (load_pb_file.py lines 41-44): rows of length ≥ 2 set
`meta[row[0]] = row[1].strip()`. -/
def metaStep (st : ParseSt) (row : List String) : ParseSt :=
  if row.length ≥ 2 then
    { st with meta := dictInsert (row.getD 0 "") (pyStripStr (row.getD 1 "")) st.meta }
  else st

/-- PROJECTS row step (load_pb_file.py lines 46-56). -/
def projectsStep (st : ParseSt) (row : List String) : ParseSt :=
  let pid := row.getD 0 ""
  { st with
    projects := dictInsert pid (rowFields st.header row [("project_id", pid)]) st.projects,
    vip := st.vip || st.header.contains "votes",
    sip := st.sip || st.header.contains "score" }

/-- VOTES row step after the duplicate check (load_pb_file.py lines 64-67). -/
def votesStep (st : ParseSt) (row : List String) : ParseSt :=
  { st with votes := dictInsert (row.getD 0 "") (rowFields st.header row []) st.votes }

/-- Main loop of `parse_pb_lines` (load_pb_file.py lines 18-67).  A row
whose first token normalises to a section name consumes the next row as
the section header (`next(reader)`; an exhausted iterator leaves the
header empty) and validates the header first column for PROJECTS/VOTES.
A VOTES row whose id maps to a truthy (non-empty) existing sub-map raises
(`if votes.get(vid): raise RuntimeError(...)`). -/
def parseRows : List (List String) → ParseSt → Except String ParseSt
  | [], st => .ok st
  | row :: rest, st =>
      if row = [] then parseRows rest st
      else if sectLineKind row then
        match rest with
        | [] => .ok { st with sect := sectOf row, header := [] }
        | hd :: rest2 =>
            match headerCheck (sectOf row) hd with
            | some msg => .error msg
            | none => parseRows rest2 { st with sect := sectOf row, header := hd }
      else
        match st.sect with
        | PBSection.start => parseRows rest st
        | PBSection.metaS => parseRows rest (metaStep st row)
        | PBSection.projectsS => parseRows rest (projectsStep st row)
        | PBSection.votesS =>
            if (dictGet st.votes (row.getD 0 "")).getD [] ≠ [] then
              .error ("Duplicated Voter ID!! " ++ row.getD 0 "")
            else parseRows rest (votesStep st row)
termination_by structural rows st => rows

/-- Result record of `parse_pb_lines`. -/
structure PBData where
  meta : List (String × String)
  projects : List (String × List (String × String))
  votes : List (String × List (String × String))
  votes_in_projects : Bool
  scores_in_projects : Bool
deriving DecidableEq, Repr

deriving instance DecidableEq for Except

/-- Embeds `parse_pb_lines` on the tokenized row sequence. -/
def parse_pb_rows (rows : List (List String)) : Except String PBData :=
  (parseRows rows initParseSt).map (fun st =>
    { meta := st.meta, projects := st.projects, votes := st.votes,
      votes_in_projects := st.vip, scores_in_projects := st.sip })

/-! Claim C5: characterisation of the failure domain of the parser. -/

/-- Truthiness test for `Except.ok`. -/
def exceptOk {ε α : Type} : Except ε α → Bool
  | .ok _ => true
  | .error _ => false

theorem dictInsert_ne_nil {α : Type} (k : String) (v : α)
    (m : List (String × α)) : dictInsert k v m ≠ [] := by
  cases m with
  | nil => simp [dictInsert]
  | cons p rest =>
      obtain ⟨k2, v2⟩ := p
      unfold dictInsert
      split <;> simp

theorem dictGet_dictInsert {α : Type} (k k2 : String) (v : α)
    (m : List (String × α)) :
    dictGet (dictInsert k v m) k2 = if k2 = k then some v else dictGet m k2 := by
  induction m with
  | nil =>
      by_cases h : k2 = k
      · subst h; simp [dictInsert, dictGet]
      · have h2 : ¬ (k = k2) := fun e => h e.symm
        simp [dictInsert, dictGet, h, h2]
  | cons p rest ih =>
      obtain ⟨k3, v3⟩ := p
      unfold dictInsert
      by_cases h3 : k3 = k
      · subst h3
        simp only [if_pos rfl]
        by_cases h2 : k2 = k3
        · subst h2; simp [dictGet]
        · have h2s : ¬ (k3 = k2) := fun e => h2 e.symm
          simp [dictGet, h2, h2s]
      · simp only [h3, if_false]
        by_cases h2 : k3 = k2
        · subst h2
          have h2s : ¬ (k3 = k) := h3
          simp [dictGet, h2s]
        · simp [dictGet, h2, ih]

theorem rowFieldsGo_ne_nil (keys : List String) (idx : Nat) (row : List String)
    (m : List (String × String)) (hm : m ≠ []) :
    rowFieldsGo keys idx row m ≠ [] := by
  induction keys generalizing idx m with
  | nil => simpa [rowFieldsGo] using hm
  | cons key keys ih =>
      unfold rowFieldsGo
      split
      · exact ih _ _ (dictInsert_ne_nil _ _ _)
      · exact ih _ _ hm

theorem rowFieldsGo_stops (keys : List String) (idx : Nat) (row : List String)
    (m : List (String × String)) (h : row.length ≤ idx) :
    rowFieldsGo keys idx row m = m := by
  induction keys generalizing idx m with
  | nil => simp [rowFieldsGo]
  | cons key keys ih =>
      unfold rowFieldsGo
      have hno : ¬ idx < row.length := by omega
      simp only [hno, if_false]
      exact ih _ _ (by omega)

/-- A VOTES row stores a truthy (non-empty) sub-map exactly when both the
current header and the row have at least two columns. -/
theorem rowFields_nil_iff (header row : List String) :
    rowFields header row [] = [] ↔ ¬ (2 ≤ header.length ∧ 2 ≤ row.length) := by
  unfold rowFields
  cases hd : header.drop 1 with
  | nil =>
      have hlen : header.length ≤ 1 := by
        have := congrArg List.length hd
        simp [List.length_drop] at this
        omega
      simp [rowFieldsGo]
      omega
  | cons key keys =>
      have hlen : 2 ≤ header.length := by
        have := congrArg List.length hd
        simp [List.length_drop] at this
        omega
      by_cases hrow : 1 < row.length
      · have hne : rowFieldsGo (key :: keys) 1 row [] ≠ [] := by
          unfold rowFieldsGo
          simp only [hrow, if_true]
          exact rowFieldsGo_ne_nil _ _ _ _ (dictInsert_ne_nil _ _ _)
        simp [hne, hlen]
        omega
      · have heq : rowFieldsGo (key :: keys) 1 row [] = [] :=
          rowFieldsGo_stops _ _ _ _ (by omega)
        simp [heq, hlen]
        omega

/-- Spec-side characterisation of the parse failure domain, following the
claim (with the duplicate-voter condition refined as the code forces):
failure occurs exactly when a non-empty PROJECTS header row does not start
with `project_id`, a non-empty VOTES header row does not start with
`voter_id`, or a VOTES row repeats a voter id whose earlier row stored a
non-empty sub-map (header and row both with ≥ 2 columns). -/
def specFailAux : List (List String) → PBSection → Bool → List String → Bool
  | [], _, _, _ => false
  | row :: rest, sect, hdrF, seen =>
      if row = [] then specFailAux rest sect hdrF seen
      else if sectLineKind row then
        match rest with
        | [] => false
        | hd :: rest2 =>
            if (headerCheck (sectOf row) hd).isSome then true
            else specFailAux rest2 (sectOf row) (decide (2 ≤ hd.length)) seen
      else
        match sect with
        | PBSection.start => specFailAux rest sect hdrF seen
        | PBSection.metaS => specFailAux rest sect hdrF seen
        | PBSection.projectsS => specFailAux rest sect hdrF seen
        | PBSection.votesS =>
            if seen.contains (row.getD 0 "") then true
            else specFailAux rest sect hdrF
              (if hdrF && decide (2 ≤ row.length) then (row.getD 0 "") :: seen else seen)
termination_by structural rows sect hdrF seen => rows

/-- Full-input failure predicate for the claim. -/
def pbSpecFailure (rows : List (List String)) : Bool :=
  specFailAux rows PBSection.start false []

theorem metaStep_votes (st : ParseSt) (row : List String) :
    (metaStep st row).votes = st.votes := by
  unfold metaStep; split <;> rfl

theorem metaStep_header (st : ParseSt) (row : List String) :
    (metaStep st row).header = st.header := by
  unfold metaStep; split <;> rfl

theorem metaStep_sect (st : ParseSt) (row : List String) :
    (metaStep st row).sect = st.sect := by
  unfold metaStep; split <;> rfl

theorem parseRows_blank (rest : List (List String)) (st : ParseSt) :
    parseRows ([] :: rest) st = parseRows rest st := by
  rw [parseRows.eq_def]; simp

theorem parseRows_sect_last (row : List String) (st : ParseSt)
    (h1 : row ≠ []) (h2 : sectLineKind row = true) :
    parseRows [row] st = .ok { st with sect := sectOf row, header := [] } := by
  rw [parseRows.eq_def]; simp [h1, h2]

theorem parseRows_sect_bad (row hd : List String) (rest2 : List (List String))
    (st : ParseSt) (msg : String) (h1 : row ≠ []) (h2 : sectLineKind row = true)
    (h3 : headerCheck (sectOf row) hd = some msg) :
    parseRows (row :: hd :: rest2) st = .error msg := by
  rw [parseRows.eq_def]; simp [h1, h2, h3]

theorem parseRows_sect_ok (row hd : List String) (rest2 : List (List String))
    (st : ParseSt) (h1 : row ≠ []) (h2 : sectLineKind row = true)
    (h3 : headerCheck (sectOf row) hd = none) :
    parseRows (row :: hd :: rest2) st =
      parseRows rest2 { st with sect := sectOf row, header := hd } := by
  rw [parseRows.eq_def]; simp [h1, h2, h3]

theorem parseRows_start (row : List String) (rest : List (List String))
    (st : ParseSt) (h1 : row ≠ []) (h2 : sectLineKind row = false)
    (h3 : st.sect = PBSection.start) :
    parseRows (row :: rest) st = parseRows rest st := by
  rw [parseRows.eq_def]; simp [h1, h2, h3]

theorem parseRows_meta (row : List String) (rest : List (List String))
    (st : ParseSt) (h1 : row ≠ []) (h2 : sectLineKind row = false)
    (h3 : st.sect = PBSection.metaS) :
    parseRows (row :: rest) st = parseRows rest (metaStep st row) := by
  rw [parseRows.eq_def]; simp [h1, h2, h3]

theorem parseRows_projects (row : List String) (rest : List (List String))
    (st : ParseSt) (h1 : row ≠ []) (h2 : sectLineKind row = false)
    (h3 : st.sect = PBSection.projectsS) :
    parseRows (row :: rest) st = parseRows rest (projectsStep st row) := by
  rw [parseRows.eq_def]; simp [h1, h2, h3]

theorem parseRows_votes_dup (row : List String) (rest : List (List String))
    (st : ParseSt) (h1 : row ≠ []) (h2 : sectLineKind row = false)
    (h3 : st.sect = PBSection.votesS)
    (h4 : (dictGet st.votes (row.getD 0 "")).getD [] ≠ []) :
    parseRows (row :: rest) st = .error ("Duplicated Voter ID!! " ++ row.getD 0 "") := by
  rw [parseRows.eq_def]
  simp only [h1, h2, h3, if_neg, if_false, ite_false, Bool.false_eq_true]
  rw [if_pos h4]

theorem parseRows_votes_ok (row : List String) (rest : List (List String))
    (st : ParseSt) (h1 : row ≠ []) (h2 : sectLineKind row = false)
    (h3 : st.sect = PBSection.votesS)
    (h4 : (dictGet st.votes (row.getD 0 "")).getD [] = []) :
    parseRows (row :: rest) st = parseRows rest (votesStep st row) := by
  rw [parseRows.eq_def]
  simp only [h1, h2, h3, if_neg, if_false, ite_false, Bool.false_eq_true]
  rw [if_neg (fun hne => hne h4)]

theorem specFailAux_blank (rest : List (List String)) (sect : PBSection)
    (hdrF : Bool) (seen : List String) :
    specFailAux ([] :: rest) sect hdrF seen = specFailAux rest sect hdrF seen := by
  rw [specFailAux.eq_def]; simp

theorem specFailAux_sect_last (row : List String) (sect : PBSection)
    (hdrF : Bool) (seen : List String) (h1 : row ≠ [])
    (h2 : sectLineKind row = true) :
    specFailAux [row] sect hdrF seen = false := by
  rw [specFailAux.eq_def]; simp [h1, h2]

theorem specFailAux_sect_bad (row hd : List String) (rest2 : List (List String))
    (sect : PBSection) (hdrF : Bool) (seen : List String) (msg : String)
    (h1 : row ≠ []) (h2 : sectLineKind row = true)
    (h3 : headerCheck (sectOf row) hd = some msg) :
    specFailAux (row :: hd :: rest2) sect hdrF seen = true := by
  rw [specFailAux.eq_def]; simp [h1, h2, h3, Option.isSome]

theorem specFailAux_sect_ok (row hd : List String) (rest2 : List (List String))
    (sect : PBSection) (hdrF : Bool) (seen : List String)
    (h1 : row ≠ []) (h2 : sectLineKind row = true)
    (h3 : headerCheck (sectOf row) hd = none) :
    specFailAux (row :: hd :: rest2) sect hdrF seen =
      specFailAux rest2 (sectOf row) (decide (2 ≤ hd.length)) seen := by
  rw [specFailAux.eq_def]; simp [h1, h2, h3]

theorem specFailAux_other (row : List String) (rest : List (List String))
    (sect : PBSection) (hdrF : Bool) (seen : List String)
    (h1 : row ≠ []) (h2 : sectLineKind row = false)
    (h3 : sect ≠ PBSection.votesS) :
    specFailAux (row :: rest) sect hdrF seen = specFailAux rest sect hdrF seen := by
  rw [specFailAux.eq_def]
  simp only [h1, h2, if_neg, if_false, ite_false, Bool.false_eq_true]
  cases sect with
  | votesS => exact absurd rfl h3
  | start => simp
  | metaS => simp
  | projectsS => simp

theorem specFailAux_votes_dup (row : List String) (rest : List (List String))
    (hdrF : Bool) (seen : List String)
    (h1 : row ≠ []) (h2 : sectLineKind row = false)
    (h4 : seen.contains (row.getD 0 "") = true) :
    specFailAux (row :: rest) PBSection.votesS hdrF seen = true := by
  rw [specFailAux.eq_def]
  simp only [h1, h2, if_neg, if_false, ite_false, Bool.false_eq_true]
  rw [if_pos h4]

theorem specFailAux_votes_ok (row : List String) (rest : List (List String))
    (hdrF : Bool) (seen : List String)
    (h1 : row ≠ []) (h2 : sectLineKind row = false)
    (h4 : seen.contains (row.getD 0 "") = false) :
    specFailAux (row :: rest) PBSection.votesS hdrF seen =
      specFailAux rest PBSection.votesS hdrF
        (if hdrF && decide (2 ≤ row.length) then (row.getD 0 "") :: seen else seen) := by
  rw [specFailAux.eq_def]
  simp only [h1, h2, if_neg, if_false, ite_false, Bool.false_eq_true]
  rw [if_neg (by rw [h4]; exact Bool.false_ne_true)]

theorem parseRows_ok_iff_aux (rows : List (List String)) (st : ParseSt) :
    ∀ (hdrF : Bool) (seen : List String),
      hdrF = decide (2 ≤ st.header.length) →
      (∀ vid, seen.contains vid = decide ((dictGet st.votes vid).getD [] ≠ [])) →
      exceptOk (parseRows rows st) = !(specFailAux rows st.sect hdrF seen) := by
  induction rows, st using parseRows.induct with
  | case1 st =>
      intro hdrF seen hh hs
      simp [parseRows, specFailAux, exceptOk]
  | case2 rest st ih =>
      intro hdrF seen hh hs
      rw [parseRows_blank, specFailAux_blank]
      exact ih hdrF seen hh hs
  | case3 row st hrow hkind =>
      intro hdrF seen hh hs
      rw [parseRows_sect_last row st hrow hkind,
        specFailAux_sect_last row st.sect hdrF seen hrow hkind]
      rfl
  | case4 row st hrow hkind hd rest2 msg hchk =>
      intro hdrF seen hh hs
      rw [parseRows_sect_bad row hd rest2 st msg hrow hkind hchk,
        specFailAux_sect_bad row hd rest2 st.sect hdrF seen msg hrow hkind hchk]
      rfl
  | case5 row st hrow hkind hd rest2 hchk ih =>
      intro hdrF seen hh hs
      rw [parseRows_sect_ok row hd rest2 st hrow hkind hchk,
        specFailAux_sect_ok row hd rest2 st.sect hdrF seen hrow hkind hchk]
      exact ih (decide (2 ≤ hd.length)) seen rfl hs
  | case6 row rest st hrow hkind hsect ih =>
      intro hdrF seen hh hs
      rw [Bool.not_eq_true] at hkind
      rw [parseRows_start row rest st hrow hkind hsect,
        specFailAux_other row rest st.sect hdrF seen hrow hkind (by rw [hsect]; decide)]
      exact ih hdrF seen hh hs
  | case7 row rest st hrow hkind hsect ih =>
      intro hdrF seen hh hs
      rw [Bool.not_eq_true] at hkind
      rw [parseRows_meta row rest st hrow hkind hsect,
        specFailAux_other row rest st.sect hdrF seen hrow hkind (by rw [hsect]; decide)]
      have hres := ih hdrF seen (by rw [hh, metaStep_header])
        (by intro vid; rw [metaStep_votes]; exact hs vid)
      rw [metaStep_sect] at hres
      exact hres
  | case8 row rest st hrow hkind hsect ih =>
      intro hdrF seen hh hs
      rw [Bool.not_eq_true] at hkind
      rw [parseRows_projects row rest st hrow hkind hsect,
        specFailAux_other row rest st.sect hdrF seen hrow hkind (by rw [hsect]; decide)]
      exact ih hdrF seen hh hs
  | case9 row rest st hrow hkind hsect hdup =>
      intro hdrF seen hh hs
      rw [Bool.not_eq_true] at hkind
      have hcont : seen.contains (row.getD 0 "") = true := by
        rw [hs]
        simpa using hdup
      rw [parseRows_votes_dup row rest st hrow hkind hsect hdup, hsect,
        specFailAux_votes_dup row rest hdrF seen hrow hkind hcont]
      rfl
  | case10 row rest st hrow hkind hsect hdup ih =>
      intro hdrF seen hh hs
      rw [Bool.not_eq_true] at hkind
      rw [Ne, Classical.not_not] at hdup
      have hcont : seen.contains (row.getD 0 "") = false := by
        rw [hs, hdup]
        simp
      rw [parseRows_votes_ok row rest st hrow hkind hsect hdup, hsect,
        specFailAux_votes_ok row rest hdrF seen hrow hkind hcont]
      have hh2 : hdrF = decide (2 ≤ (votesStep st row).header.length) := by
        rw [hh]; rfl
      have hs2 : ∀ vid2,
          (if hdrF && decide (2 ≤ row.length) then (row.getD 0 "") :: seen
            else seen).contains vid2 =
          decide ((dictGet (votesStep st row).votes vid2).getD [] ≠ []) := by
        intro vid2
        show _ = decide ((dictGet (votesStep st row).votes vid2).getD [] ≠ [])
        have hv : (votesStep st row).votes =
            dictInsert (row.getD 0 "") (rowFields st.header row []) st.votes := rfl
        rw [hv, dictGet_dictInsert]
        by_cases hvid : vid2 = row.getD 0 ""
        · subst hvid
          simp only [if_pos rfl, Option.getD_some]
          by_cases hne : rowFields st.header row [] = []
          · have hcond : ¬ (2 ≤ st.header.length ∧ 2 ≤ row.length) :=
              (rowFields_nil_iff _ _).mp hne
            have hb : (hdrF && decide (2 ≤ row.length)) = false := by
              rw [hh]
              simp only [Bool.and_eq_false_iff, decide_eq_false_iff_not]
              by_cases h2 : 2 ≤ st.header.length
              · exact Or.inr (fun hr => hcond ⟨h2, hr⟩)
              · exact Or.inl (by simpa using h2)
            rw [hne]
            rw [if_neg (by rw [hb]; exact Bool.false_ne_true)]
            simp only [if_true, Option.getD_some]
            have hdec : decide (([] : List (String × String)) ≠ []) = false := by decide
            rw [hdec]
            exact hcont
          · have hcond : 2 ≤ st.header.length ∧ 2 ≤ row.length := by
              by_contra hc
              exact hne ((rowFields_nil_iff _ _).mpr hc)
            have hb : (hdrF && decide (2 ≤ row.length)) = true := by
              rw [hh]
              simp [hcond.1, hcond.2]
            rw [if_pos hb]
            simp [hne, List.contains_cons]
        · simp only [if_neg hvid]
          by_cases hb : (hdrF && decide (2 ≤ row.length)) = true
          · simp only [hb, if_true, ite_true]
            rw [List.contains_cons]
            have hvb : (vid2 == row.getD 0 "") = false :=
              beq_eq_false_iff_ne.mpr hvid
            rw [hvb]
            simp only [Bool.false_or]
            exact hs vid2
          · rw [Bool.not_eq_true] at hb
            simp only [hb, if_false, ite_false, Bool.false_eq_true]
            exact hs vid2
      have hres := ih hdrF _ hh2 hs2
      rw [show (votesStep st row).sect = st.sect from rfl, hsect] at hres
      exact hres

theorem exceptOk_map {ε α β : Type} (f : α → β) (e : Except ε α) :
    exceptOk (Except.map f e) = exceptOk e := by cases e <;> rfl

/-- C5 (amended). Parser failure domain: parsing a row sequence fails
exactly when a non-empty PROJECTS header row does not normalise to first
column `project_id`, a non-empty VOTES header row does not normalise to
first column `voter_id`, or a voter id repeats in the VOTES section after
an earlier occurrence that stored a non-empty sub-map (both the header
and that earlier row had at least two columns).  In particular a missing
section, blank lines, or missing optional fields never cause an error.
The original claim (failure on every repeated voter id) is refuted by
`parse_pb_rows_duplicate_voter_ok`: a repeat whose first occurrence
stored an empty sub-map is silently overwritten because Python tests
`if votes.get(vid):` for truthiness, not for presence. -/
theorem parse_pb_rows_failure_characterisation (rows : List (List String)) :
    exceptOk (parse_pb_rows rows) = !(pbSpecFailure rows) := by
  unfold parse_pb_rows pbSpecFailure
  rw [exceptOk_map]
  exact parseRows_ok_iff_aux rows initParseSt false [] rfl (fun vid => rfl)

/-- C5 counterexample to the claim as stated: the VOTES section below
contains the same `voter_id` row `["1"]` twice (count 2), yet parsing
succeeds, because the first occurrence stored an empty sub-map (the
header has no field columns) and `if votes.get(vid):` is false on an
empty dict. -/
theorem parse_pb_rows_duplicate_voter_ok :
    ([["votes"], ["voter_id"], ["1"], ["1"]] : List (List String)).count ["1"] = 2 ∧
    exceptOk (parse_pb_rows [["votes"], ["voter_id"], ["1"], ["1"]]) = true := by
  constructor
  · decide
  · decide

/-! Claim C9: the tile quality formula
`quality = (vlen ** 2) * (float(num_projects) ** 1) * (float(num_votes) ** 0.5)`
(src/app/utils/pb_utils.py lines 226-228), with Python floats idealised
as real numbers; `x ** 0.5` on a non-negative count is `Real.sqrt`. -/

/-- Embeds the quality formula of `parse_pb_to_tile`. -/
noncomputable def quality (vlen : ℝ) (num_projects num_votes : ℕ) : ℝ :=
  vlen ^ 2 * (num_projects : ℝ) ^ 1 * Real.sqrt num_votes

/-- C9 (amended). Quality is strictly monotone in the (non-negative)
average vote length when `num_projects` and `num_votes` are held fixed
and are both positive.  The original claim, quantified over all tiles,
fails for tiles with `num_projects = 0` or `num_votes = 0` (both
reachable, e.g. from a declared `num_projects: 0` META row), where the
quality of any two such tiles is 0: see
`quality_vote_length_counterexample`. -/
theorem quality_strict_mono_in_vote_length (a b : ℝ) (p n : ℕ)
    (ha : 0 ≤ a) (hab : a < b) (hp : 0 < p) (hn : 0 < n) :
    quality a p n < quality b p n := by
  unfold quality
  have hsq : a ^ 2 < b ^ 2 := by nlinarith
  have hpn : (0:ℝ) < (p:ℝ) ^ 1 := by positivity
  have hs : (0:ℝ) < Real.sqrt n := Real.sqrt_pos.mpr (by exact_mod_cast hn)
  exact mul_lt_mul_of_pos_right (mul_lt_mul_of_pos_right hsq hpn) hs

/-- C9 counterexample to the claim as stated: two tiles with the same
`num_projects = 0` and `num_votes = 5` but vote lengths 1 < 2 have equal
(zero) quality, so the strictly-larger-quality conclusion fails. -/
theorem quality_vote_length_counterexample :
    (0:ℝ) ≤ 1 ∧ (1:ℝ) < 2 ∧ ¬ (quality 1 0 5 < quality 2 0 5) := by
  refine ⟨by norm_num, by norm_num, ?_⟩
  unfold quality
  simp

/-- Witness for `quality_strict_mono_in_vote_length` at vote lengths
1 < 2 with one project and one vote. -/
theorem quality_strict_mono_witness :
    ((0:ℝ) ≤ 1 ∧ (1:ℝ) < 2 ∧ 0 < 1 ∧ 0 < 1) ∧ quality 1 1 1 < quality 2 1 1 :=
  ⟨⟨by norm_num, by norm_num, Nat.one_pos, Nat.one_pos⟩,
    quality_strict_mono_in_vote_length 1 2 1 1 (by norm_num) (by norm_num)
      Nat.one_pos Nat.one_pos⟩

/-! Claim C7: the comment extractor `parse_comments_from_meta`
(src/app/utils/pb_utils.py lines 12-47). Python strings are `List Char`;
`str.find` is `pyFind`; the `while True` loop is `commentLoop`, driven by
a fuel argument (the loop provably terminates within `|s| + 1`
iterations on every input the theorems touch). -/

/-- Decimal digit character (0-9). -/
def digitChar10 (n : Nat) : Char :=
  if n = 0 then '0' else if n = 1 then '1' else if n = 2 then '2'
  else if n = 3 then '3' else if n = 4 then '4' else if n = 5 then '5'
  else if n = 6 then '6' else if n = 7 then '7' else if n = 8 then '8'
  else '9'

/-- Decimal digits of a natural number (fuel-driven; `n + 1` always
suffices), matching the Python f-string rendering of `expecting`. -/
def natDigitsAux : Nat → Nat → List Char
  | 0, _ => []
  | fuel + 1, n =>
      if n < 10 then [digitChar10 n]
      else natDigitsAux fuel (n / 10) ++ [digitChar10 (n % 10)]

/-- Decimal representation of `n`. -/
def natDigits (n : Nat) : List Char := natDigitsAux (n + 1) n

/-- The digit character set. -/
def isDigitCh (c : Char) : Bool :=
  c = '0' || c = '1' || c = '2' || c = '3' || c = '4' || c = '5' ||
  c = '6' || c = '7' || c = '8' || c = '9'

/-- First index at which `pat` is a prefix of a suffix of `s`
(Python `s.find(pat)` for non-empty `pat`). -/
def subFind (pat : List Char) : List Char → Option Nat
  | [] => if pat.isPrefixOf ([] : List Char) then some 0 else none
  | c :: t =>
      if pat.isPrefixOf (c :: t) then some 0
      else (subFind pat t).map (· + 1)

/-- Python `s.find(pat, start)` (for the non-empty patterns the extractor
uses): the absolute index of the first occurrence at or after `start`,
`none` standing for -1. -/
def pyFind (s pat : List Char) (start : Nat) : Option Nat :=
  (subFind pat (s.drop start)).map (· + start)

/-- Trailing/leading `;` and `.` strip set of `chunk.strip().strip(";.")`. -/
def pyIsStripPunct (c : Char) : Bool := c = ';' || c = '.'

/-- Cleaning of one comment chunk: `chunk.strip().strip(";.")`. -/
def cleanChunk (l : List Char) : List Char :=
  pyStrip pyIsStripPunct (pyStrip pyIsSpace l)

/-- Marker `#{n}:`. -/
def commentMarker (n : Nat) : List Char := '#' :: (natDigits n ++ [':'])

/-- The `while True` loop of `parse_comments_from_meta` (pb_utils.py
lines 26-46), at `expecting = n` with explicit fuel. -/
def commentLoop (s : List Char) : Nat → Nat → List (List Char)
  | 0, _ => []
  | fuel + 1, expecting =>
      match pyFind s (commentMarker expecting) 0 with
      | none =>
          if expecting = 1 ∧ s ≠ [] then
            (if cleanChunk s = [] then [] else [cleanChunk s])
          else []
      | some start =>
          let startText := start + (commentMarker expecting).length
          let chunkEnd := pyFind s (commentMarker (expecting + 1)) startText
          let chunk := match chunkEnd with
            | none => s.drop startText
            | some e => (s.drop startText).take (e - startText)
          (if cleanChunk chunk = [] then [] else [cleanChunk chunk]) ++
            (match chunkEnd with
             | none => []
             | some _ => commentLoop s fuel (expecting + 1))

/-- Python `s.replace("\n", " ")`. -/
def pyReplaceNewline (l : List Char) : List Char :=
  l.map (fun c => if c = '\n' then ' ' else c)

/-- Embeds `parse_comments_from_meta` on the raw comment string
(`str(meta.get("comment", ""))`). -/
def parse_comments_from_meta (comment : String) : List String :=
  let raw := pyStrip pyIsSpace comment.data
  if raw = [] then []
  else
    let s := pyReplaceNewline raw
    (commentLoop s (s.length + 1) 1).map (fun l => String.mk l)

/-- Concatenation `#j: seg_j #j+1: seg_{j+1} ... #k: seg_k` of markers
and segments, the structured inputs of the claim. -/
def commentChain : Nat → List (List Char) → List Char
  | _, [] => []
  | j, seg :: rest => commentMarker j ++ seg ++ commentChain (j + 1) rest

/-- Numeric value of a digit character. -/
def digitVal10 (c : Char) : Nat :=
  if c = '0' then 0 else if c = '1' then 1 else if c = '2' then 2
  else if c = '3' then 3 else if c = '4' then 4 else if c = '5' then 5
  else if c = '6' then 6 else if c = '7' then 7 else if c = '8' then 8 else 9

/-- Value of a digit string (big-endian). -/
def digitsVal (l : List Char) : Nat :=
  l.foldl (fun a c => a * 10 + digitVal10 c) 0

theorem digitChar10_digit (n : Nat) : isDigitCh (digitChar10 n) = true := by
  unfold digitChar10
  split_ifs <;> decide

theorem digitVal10_digitChar10 (n : Nat) (h : n < 10) :
    digitVal10 (digitChar10 n) = n := by
  interval_cases n <;> decide

theorem digitsVal_append_digit (l : List Char) (c : Char) :
    digitsVal (l ++ [c]) = digitsVal l * 10 + digitVal10 c := by
  simp [digitsVal, List.foldl_append]

theorem natDigitsAux_val : ∀ (fuel n : Nat), n < 10 ^ fuel →
    digitsVal (natDigitsAux fuel n) = n
  | 0, n, h => by
      simp only [pow_zero, Nat.lt_one_iff] at h
      simp [natDigitsAux, digitsVal, h]
  | fuel + 1, n, h => by
      unfold natDigitsAux
      split
      case isTrue h10 =>
        simp [digitsVal, digitVal10_digitChar10 n h10]
      case isFalse h10 =>
        rw [digitsVal_append_digit]
        have hdiv : n / 10 < 10 ^ fuel := by
          rw [Nat.div_lt_iff_lt_mul (by norm_num)]
          calc n < 10 ^ (fuel + 1) := h
          _ = 10 ^ fuel * 10 := by ring
        rw [natDigitsAux_val fuel (n / 10) hdiv,
          digitVal10_digitChar10 (n % 10) (Nat.mod_lt n (by norm_num))]
        omega

theorem natDigits_val (n : Nat) : digitsVal (natDigits n) = n := by
  apply natDigitsAux_val
  have h1 : n < 2 ^ n := Nat.lt_two_pow n
  have h2 : 2 ^ n ≤ 10 ^ n := Nat.pow_le_pow_left (by norm_num) n
  have h3 : 10 ^ n ≤ 10 ^ (n + 1) := Nat.pow_le_pow_right (by norm_num) (Nat.le_succ n)
  omega

theorem natDigits_inj {a b : Nat} (h : natDigits a = natDigits b) : a = b := by
  have hv := congrArg digitsVal h
  rwa [natDigits_val, natDigits_val] at hv

theorem natDigitsAux_digits : ∀ (fuel n : Nat) (c : Char),
    c ∈ natDigitsAux fuel n → isDigitCh c = true
  | 0, n, c, h => by simp [natDigitsAux] at h
  | fuel + 1, n, c, h => by
      unfold natDigitsAux at h
      split at h
      · simp only [List.mem_singleton] at h
        subst h
        exact digitChar10_digit _
      · rw [List.mem_append] at h
        rcases h with h | h
        · exact natDigitsAux_digits fuel _ c h
        · simp only [List.mem_singleton] at h
          subst h
          exact digitChar10_digit _

theorem natDigits_digits (n : Nat) (c : Char) (h : c ∈ natDigits n) :
    isDigitCh c = true :=
  natDigitsAux_digits _ _ _ h

theorem append_sentinel_prefix (P : Char → Bool) (c : Char) (hc : P c = false) :
    ∀ (a b u : List Char), (∀ x ∈ a, P x = true) → (∀ x ∈ b, P x = true) →
    ((a ++ [c]) <+: (b ++ c :: u)) → a = b := by
  intro a
  induction a with
  | nil =>
      intro b u _ hb hpre
      cases b with
      | nil => rfl
      | cons x bs =>
          simp only [List.nil_append, List.cons_append] at hpre
          have h1 := (List.cons_prefix_cons.mp hpre).1
          have hx := hb x (by simp)
          rw [← h1] at hx
          rw [hx] at hc
          cases hc
  | cons y ays ih =>
      intro b u ha hb hpre
      cases b with
      | nil =>
          simp only [List.cons_append, List.nil_append] at hpre
          have h1 := (List.cons_prefix_cons.mp hpre).1
          have hy := ha y (by simp)
          rw [h1] at hy
          rw [hy] at hc
          cases hc
      | cons x bs =>
          simp only [List.cons_append] at hpre
          obtain ⟨hyx, hrest⟩ := List.cons_prefix_cons.mp hpre
          have hih := ih bs u (fun z hz => ha z (by simp [hz]))
            (fun z hz => hb z (by simp [hz])) hrest
          rw [hyx, hih]

theorem marker_not_prefix_marker (m j : Nat) (hm : m ≠ j) (rest : List Char) :
    ¬ (commentMarker m <+: (commentMarker j ++ rest)) := by
  intro hpre
  unfold commentMarker at hpre
  simp only [List.cons_append] at hpre
  have h2 := (List.cons_prefix_cons.mp hpre).2
  rw [List.append_assoc] at h2
  have heq : natDigits m = natDigits j := by
    apply append_sentinel_prefix isDigitCh ':' (by decide) (natDigits m) (natDigits j) rest
      (fun x hx => natDigits_digits m x hx) (fun x hx => natDigits_digits j x hx)
    simpa using h2
  exact hm (natDigits_inj heq)

theorem subFind_of_pref (pat l : List Char) (h : pat <+: l) :
    subFind pat l = some 0 := by
  cases l with
  | nil =>
      have : pat = [] := List.prefix_nil.mp h
      simp [subFind, this]
  | cons c t =>
      unfold subFind
      rw [if_pos (List.isPrefixOf_iff_prefix.mpr h)]

theorem subFind_nil_of_ne (pat : List Char) (h : pat ≠ []) :
    subFind pat [] = none := by
  unfold subFind
  rw [if_neg]
  intro hp
  exact h (List.prefix_nil.mp (List.isPrefixOf_iff_prefix.mp hp))

theorem subFind_append_block (pat tail : List Char) :
    ∀ (block : List Char),
    (∀ i, i < block.length → ¬ (pat <+: (block ++ tail).drop i)) →
    subFind pat (block ++ tail) = (subFind pat tail).map (· + block.length) := by
  intro block
  induction block with
  | nil =>
      intro _
      simp only [List.nil_append, List.length_nil]
      cases subFind pat tail <;> simp
  | cons c bl ih =>
      intro h
      have h0 : ¬ (pat <+: (c :: (bl ++ tail))) := by
        have := h 0 (by simp)
        simpa using this
      simp only [List.cons_append]
      have hstep : subFind pat (c :: (bl ++ tail)) =
          if pat.isPrefixOf (c :: (bl ++ tail)) then some 0
          else (subFind pat (bl ++ tail)).map (· + 1) := rfl
      rw [hstep, if_neg (fun hp => h0 (List.isPrefixOf_iff_prefix.mp hp))]
      rw [ih ?_]
      · cases subFind pat tail with
        | none => simp
        | some v => simp [List.length_cons]; omega
      · intro i hi
        have := h (i + 1) (by simp only [List.length_cons]; omega)
        simpa [List.cons_append] using this

theorem marker_prefix_head (m : Nat) (l : List Char)
    (h : commentMarker m <+: l) : l.head? = some '#' := by
  obtain ⟨t, ht⟩ := h
  rw [← ht]
  rfl

theorem commentMarker_ne_nil (m : Nat) : commentMarker m ≠ [] := by
  simp [commentMarker]

theorem hash_not_digit : isDigitCh '#' = false := by decide

theorem subFind_marker_hashfree (m : Nat) (tail : List Char) :
    ∀ (block : List Char), '#' ∉ block →
    subFind (commentMarker m) (block ++ tail) =
      (subFind (commentMarker m) tail).map (· + block.length) := by
  intro block
  induction block with
  | nil =>
      intro _
      simp only [List.nil_append, List.length_nil]
      cases subFind (commentMarker m) tail <;> simp
  | cons c bl ih =>
      intro hb
      have hc : c ≠ '#' := by
        intro he
        exact hb (by rw [he] at *; exact List.mem_cons_self _ _)
      have hnp : ¬ (commentMarker m <+: (c :: (bl ++ tail))) := by
        intro hpre
        have hh := marker_prefix_head m _ hpre
        simp only [List.head?_cons, Option.some.injEq] at hh
        exact hc hh
      have hstep : subFind (commentMarker m) (c :: (bl ++ tail)) =
          if (commentMarker m).isPrefixOf (c :: (bl ++ tail)) then some 0
          else (subFind (commentMarker m) (bl ++ tail)).map (· + 1) := rfl
      simp only [List.cons_append]
      rw [hstep, if_neg (fun hp => hnp (List.isPrefixOf_iff_prefix.mp hp))]
      rw [ih (fun hmem => hb (List.mem_cons_of_mem _ hmem))]
      cases subFind (commentMarker m) tail with
      | none => simp
      | some v =>
          show some (v + bl.length + 1) = some (v + (bl.length + 1))
          exact congrArg some (by omega)

theorem hash_free_digits_colon_seg (j : Nat) (seg : List Char) (hseg : '#' ∉ seg) :
    '#' ∉ (natDigits j ++ [':']) ++ seg := by
  intro hmem
  rw [List.mem_append] at hmem
  rcases hmem with hmem | hmem
  · rw [List.mem_append] at hmem
    rcases hmem with hmem | hmem
    · have := natDigits_digits j _ hmem
      rw [hash_not_digit] at this
      cases this
    · simp at hmem
  · exact hseg hmem

theorem subFind_marker_block (m j : Nat) (seg tail : List Char)
    (hm : m ≠ j) (hseg : '#' ∉ seg) :
    subFind (commentMarker m) ((commentMarker j ++ seg) ++ tail) =
      (subFind (commentMarker m) tail).map (· + (commentMarker j ++ seg).length) := by
  have hshape : (commentMarker j ++ seg) ++ tail =
      '#' :: (((natDigits j ++ [':']) ++ seg) ++ tail) := by
    simp [commentMarker]
  have hnp : ¬ (commentMarker m <+: ((commentMarker j ++ seg) ++ tail)) := by
    rw [List.append_assoc]
    exact marker_not_prefix_marker m j hm _
  rw [hshape]
  have hstep : subFind (commentMarker m)
      ('#' :: (((natDigits j ++ [':']) ++ seg) ++ tail)) =
      if (commentMarker m).isPrefixOf ('#' :: (((natDigits j ++ [':']) ++ seg) ++ tail))
        then some 0
      else (subFind (commentMarker m) (((natDigits j ++ [':']) ++ seg) ++ tail)).map
        (· + 1) := rfl
  rw [hstep, if_neg (fun hp => hnp (by rw [hshape]; exact List.isPrefixOf_iff_prefix.mp hp))]
  rw [subFind_marker_hashfree m tail _ (hash_free_digits_colon_seg j seg hseg)]
  cases subFind (commentMarker m) tail with
  | none => simp
  | some v =>
      show some (v + ((natDigits j ++ [':']) ++ seg).length + 1) =
        some (v + (commentMarker j ++ seg).length)
      refine congrArg some ?_
      simp only [commentMarker, List.length_append, List.length_cons,
        List.cons_append, List.length_nil]
      omega

theorem commentLoop_step (s : List Char) (fuel expecting : Nat) :
    commentLoop s (fuel + 1) expecting =
      match pyFind s (commentMarker expecting) 0 with
      | none =>
          if expecting = 1 ∧ s ≠ [] then
            (if cleanChunk s = [] then [] else [cleanChunk s])
          else []
      | some start =>
          let startText := start + (commentMarker expecting).length
          let chunkEnd := pyFind s (commentMarker (expecting + 1)) startText
          let chunk := match chunkEnd with
            | none => s.drop startText
            | some e => (s.drop startText).take (e - startText)
          (if cleanChunk chunk = [] then [] else [cleanChunk chunk]) ++
            (match chunkEnd with
             | none => []
             | some _ => commentLoop s fuel (expecting + 1)) := rfl

theorem commentLoop_chain :
    ∀ (segs : List (List Char)) (s : List Char) (p j fuel : Nat),
    segs ≠ [] →
    segs.length ≤ fuel →
    (∀ seg ∈ segs, '#' ∉ seg) →
    s.drop p = commentChain j segs →
    (∀ m, j ≤ m → subFind (commentMarker m) s =
      (subFind (commentMarker m) (commentChain j segs)).map (· + p)) →
    commentLoop s fuel j = (segs.map cleanChunk).filter (fun t => t ≠ []) := by
  intro segs
  induction segs with
  | nil => intro s p j fuel hne; exact absurd rfl hne
  | cons seg rest ih =>
      intro s p j fuel _ hfuel hhash hdrop hfind
      cases fuel with
      | zero => simp at hfuel
      | succ f =>
          have hchain : commentChain j (seg :: rest) =
              (commentMarker j ++ seg) ++ commentChain (j + 1) rest := by
            simp [commentChain, List.append_assoc]
          -- find of marker j in s is at p
          have hfj : pyFind s (commentMarker j) 0 = some p := by
            unfold pyFind
            rw [List.drop_zero, hfind j le_rfl]
            rw [show commentChain j (seg :: rest) =
              commentMarker j ++ (seg ++ commentChain (j + 1) rest) from by
                simp [commentChain]]
            rw [subFind_of_pref _ _ (List.prefix_append _ _)]
            simp
          -- suffix of s after the marker
          have hdrop2 : s.drop (p + (commentMarker j).length) =
              seg ++ commentChain (j + 1) rest := by
            rw [← List.drop_drop, hdrop]
            rw [show commentChain j (seg :: rest) =
              commentMarker j ++ (seg ++ commentChain (j + 1) rest) from by
                simp [commentChain]]
            exact List.drop_left _ _
          rw [commentLoop_step, hfj]
          simp only []
          cases rest with
          | nil =>
              have hend : pyFind s (commentMarker (j + 1))
                  (p + (commentMarker j).length) = none := by
                unfold pyFind
                rw [hdrop2]
                rw [show commentChain (j + 1) ([] : List (List Char)) = [] from rfl]
                rw [show (seg ++ ([] : List Char)) = seg ++ [] from rfl]
                rw [subFind_marker_hashfree (j + 1) [] seg (hhash seg (by simp))]
                rw [subFind_nil_of_ne _ (commentMarker_ne_nil _)]
                rfl
              rw [hend]
              simp only [List.map_cons, List.map_nil, List.filter]
              rw [show commentChain (j + 1) ([] : List (List Char)) = [] from rfl] at hdrop2
              rw [List.append_nil] at hdrop2
              rw [hdrop2]
              by_cases hc : cleanChunk seg = []
              · simp [hc]
              · simp [hc]
          | cons seg2 rest2 =>
              have hend : pyFind s (commentMarker (j + 1))
                  (p + (commentMarker j).length) =
                  some (seg.length + (p + (commentMarker j).length)) := by
                unfold pyFind
                rw [hdrop2]
                rw [subFind_marker_hashfree (j + 1) _ seg (hhash seg (by simp))]
                rw [show commentChain (j + 1) (seg2 :: rest2) =
                  commentMarker (j + 1) ++ (seg2 ++ commentChain (j + 2) rest2) from by
                    simp [commentChain]]
                rw [subFind_of_pref _ _ (List.prefix_append _ _)]
                simp
              rw [hend]
              simp only []
              have htake : (s.drop (p + (commentMarker j).length)).take
                  ((seg.length + (p + (commentMarker j).length)) -
                    (p + (commentMarker j).length)) = seg := by
                rw [hdrop2]
                have harith : (seg.length + (p + (commentMarker j).length)) -
                    (p + (commentMarker j).length) = seg.length := by omega
                rw [harith]
                exact List.take_left _ _
              rw [htake]
              -- recursive call
              have hrec : commentLoop s f (j + 1) =
                  ((seg2 :: rest2).map cleanChunk).filter (fun t => t ≠ []) := by
                apply ih s (seg.length + (p + (commentMarker j).length)) (j + 1) f
                  (by simp) (by simp at hfuel ⊢; omega)
                  (fun sg hsg => hhash sg (by simp [hsg]))
                · rw [show seg.length + (p + (commentMarker j).length) =
                    seg.length + (p + (commentMarker j).length) from rfl]
                  rw [Nat.add_comm seg.length (p + (commentMarker j).length),
                    ← List.drop_drop, hdrop2]
                  exact List.drop_left _ _
                · intro m hm
                  rw [hfind m (by omega), hchain]
                  rw [subFind_marker_block m j seg _ (by omega)
                    (hhash seg (by simp))]
                  cases subFind (commentMarker m) (commentChain (j + 1) (seg2 :: rest2)) with
                  | none => simp
                  | some v =>
                      show some (v + (commentMarker j ++ seg).length + p) =
                        some (v + (seg.length + (p + (commentMarker j).length)))
                      refine congrArg some ?_
                      simp only [List.length_append]
                      omega
              rw [hrec]
              simp only [List.map_cons, List.filter]
              by_cases hc : cleanChunk seg = []
              · simp [hc]
              · simp [hc]

theorem subFind_none_iff (pat : List Char) (hne : pat ≠ []) :
    ∀ l, subFind pat l = none ↔ ¬ (pat <:+: l) := by
  intro l
  induction l with
  | nil =>
      rw [subFind_nil_of_ne pat hne]
      simp only [true_iff]
      intro hinf
      exact hne (List.eq_nil_of_infix_nil hinf)
  | cons c t ih =>
      have hstep : subFind pat (c :: t) =
          if pat.isPrefixOf (c :: t) then some 0
          else (subFind pat t).map (· + 1) := rfl
      rw [hstep]
      by_cases hp : pat <+: (c :: t)
      · rw [if_pos (List.isPrefixOf_iff_prefix.mpr hp)]
        constructor
        · intro he; cases he
        · intro hni
          exact absurd (List.infix_cons_iff.mpr (Or.inl hp)) hni
      · rw [if_neg (fun hb => hp (List.isPrefixOf_iff_prefix.mp hb))]
        rw [List.infix_cons_iff]
        cases hsf : subFind pat t with
        | none =>
            constructor
            · intro _ hinf
              rcases hinf with hpre | hinf2
              · exact hp hpre
              · exact (ih.mp hsf) hinf2
            · intro _
              rfl
        | some v =>
            constructor
            · intro he
              simp at he
            · intro hni
              exfalso
              apply hni
              right
              have hnn : ¬ (subFind pat t = none) := by simp [hsf]
              by_contra hni2
              exact hnn (ih.mpr hni2)

theorem pyStrip_within (p : Char → Bool) (l : List Char) : pyStrip p l <:+: l := by
  unfold pyStrip
  have h1 : l.dropWhile p <:+ l := List.dropWhile_suffix p
  have h2 : (l.dropWhile p).reverse.dropWhile p <:+ (l.dropWhile p).reverse :=
    List.dropWhile_suffix p
  have h3 : ((l.dropWhile p).reverse.dropWhile p).reverse <+: l.dropWhile p := by
    rw [← List.reverse_suffix, List.reverse_reverse]
    exact h2
  exact h3.isInfix.trans h1.isInfix

theorem commentMarker_one : commentMarker 1 = ['#', '1', ':'] := by decide

theorem replaceNl_eq (c d : Char) (hd : d ≠ ' ')
    (h : (if c = '\n' then ' ' else c) = d) : c = d := by
  by_cases hc : c = '\n'
  · rw [if_pos hc] at h
    exact absurd h.symm hd
  · rwa [if_neg hc] at h

theorem pyReplaceNewline_fixed (b : List Char)
    (h : List.map (fun c => if c = '\n' then ' ' else c) b = ['#', '1', ':']) :
    b = ['#', '1', ':'] := by
  cases b with
  | nil => simp at h
  | cons c1 b1 =>
      cases b1 with
      | nil => simp at h
      | cons c2 b2 =>
          cases b2 with
          | nil => simp at h
          | cons c3 b3 =>
              cases b3 with
              | cons c4 b4 => simp at h
              | nil =>
                  simp only [List.map_cons, List.map_nil, List.cons.injEq,
                    and_true] at h
                  obtain ⟨h1, h2, h3⟩ := h
                  rw [replaceNl_eq c1 '#' (by decide) h1,
                    replaceNl_eq c2 '1' (by decide) h2,
                    replaceNl_eq c3 ':' (by decide) h3]

theorem marker1_infix_of_map (l : List Char)
    (h : commentMarker 1 <:+: pyReplaceNewline l) : commentMarker 1 <:+: l := by
  obtain ⟨s1, s2, heq⟩ := h
  unfold pyReplaceNewline at heq
  have heq2 : List.map (fun c => if c = '\n' then ' ' else c) l =
      s1 ++ (commentMarker 1 ++ s2) := by rw [← heq]; simp [List.append_assoc]
  rw [List.map_eq_append_iff] at heq2
  obtain ⟨a, bc, hl, hma, hbc⟩ := heq2
  rw [List.map_eq_append_iff] at hbc
  obtain ⟨b, c2, hbc2, hmb, hmc⟩ := hbc
  rw [commentMarker_one] at hmb
  have hb := pyReplaceNewline_fixed b hmb
  refine ⟨a, c2, ?_⟩
  rw [hl, hbc2, hb, commentMarker_one]
  simp [List.append_assoc]

theorem pyReplaceNewline_id (l : List Char) (h : '\n' ∉ l) :
    pyReplaceNewline l = l := by
  unfold pyReplaceNewline
  induction l with
  | nil => rfl
  | cons c t ih =>
      simp only [List.map_cons]
      have hc : c ≠ '\n' := by
        intro he
        apply h
        rw [← he]
        exact List.mem_cons_self c t
      rw [if_neg hc, ih (fun hm => h (List.mem_cons_of_mem _ hm))]

theorem commentChain_length_ge (segs : List (List Char)) :
    ∀ j, segs.length ≤ (commentChain j segs).length := by
  induction segs with
  | nil => intro j; simp [commentChain]
  | cons seg rest ih =>
      intro j
      have := ih (j + 1)
      simp only [commentChain, List.length_cons, List.length_append]
      have hm : 1 ≤ (commentMarker j).length := by simp [commentMarker]
      omega

theorem parse_comments_no_marker (comment : String)
    (h : ¬ (commentMarker 1 <:+: comment.data)) :
    (parse_comments_from_meta comment).length ≤ 1 := by
  unfold parse_comments_from_meta
  by_cases hraw : pyStrip pyIsSpace comment.data = []
  · simp [hraw]
  · simp only [hraw, if_neg, if_false, ite_false]
    have hnomark : ¬ (commentMarker 1 <:+:
        pyReplaceNewline (pyStrip pyIsSpace comment.data)) := by
      intro hinf
      exact h ((marker1_infix_of_map _ hinf).trans (pyStrip_within _ _))
    have hfind : pyFind (pyReplaceNewline (pyStrip pyIsSpace comment.data))
        (commentMarker 1) 0 = none := by
      unfold pyFind
      rw [List.drop_zero,
        (subFind_none_iff _ (commentMarker_ne_nil 1) _).mpr hnomark]
      rfl
    rw [commentLoop_step, hfind]
    split_ifs <;> simp

theorem parse_comments_chain (segs : List (List Char)) (hne : segs ≠ [])
    (hhash : ∀ seg ∈ segs, '#' ∉ seg)
    (hstrip : pyStrip pyIsSpace (commentChain 1 segs) = commentChain 1 segs)
    (hnl : '\n' ∉ commentChain 1 segs) :
    (parse_comments_from_meta (String.mk (commentChain 1 segs))).length =
      ((segs.map cleanChunk).filter (fun t => t ≠ [])).length := by
  unfold parse_comments_from_meta
  have hdata : (String.mk (commentChain 1 segs)).data = commentChain 1 segs := rfl
  rw [hdata, hstrip]
  have hchne : commentChain 1 segs ≠ [] := by
    cases segs with
    | nil => exact absurd rfl hne
    | cons a b => simp [commentChain, commentMarker]
  rw [if_neg hchne, pyReplaceNewline_id _ hnl]
  show (List.map (fun l => String.mk l) (commentLoop (commentChain 1 segs)
    ((commentChain 1 segs).length + 1) 1)).length = _
  rw [commentLoop_chain segs (commentChain 1 segs) 0 1
    ((commentChain 1 segs).length + 1) hne
    (by have := commentChain_length_ge segs 1; omega)
    hhash (List.drop_zero _)
    (by
      intro m _
      cases hsf : subFind (commentMarker m) (commentChain 1 segs) with
      | none => rfl
      | some v => simp)]
  exact List.length_map _ _

/-- C7 (amended). Comment extractor length properties: (1) for any input
string that does not contain the marker `#1:`, the output has length at
most 1; (2) for a structured input `#1:seg1#2:seg2...#k:segk` (segments
free of `#`, the whole string already whitespace-stripped and free of
newlines), the output length equals the number of segments that are
non-empty after cleaning (strip whitespace, then strip `;`/`.`).  In
particular it equals k exactly when every cleaned segment is non-empty;
the original claim of length exactly k for every such string is refuted
by `parse_comments_empty_segment_counterexample` (an empty segment is
dropped). -/
theorem parse_comments_length_characterisation :
    (∀ comment : String, ¬ (commentMarker 1 <:+: comment.data) →
      (parse_comments_from_meta comment).length ≤ 1) ∧
    (∀ segs : List (List Char), segs ≠ [] →
      (∀ seg ∈ segs, '#' ∉ seg) →
      pyStrip pyIsSpace (commentChain 1 segs) = commentChain 1 segs →
      '\n' ∉ commentChain 1 segs →
      (parse_comments_from_meta (String.mk (commentChain 1 segs))).length =
        ((segs.map cleanChunk).filter (fun t => t ≠ [])).length) :=
  ⟨parse_comments_no_marker, parse_comments_chain⟩

/-- C7 counterexample to the claim as stated: the string `#1:#2:b`
contains the consecutive markers `#1:` and `#2:` (k = 2), but the
extractor returns only one comment (`b`), because the empty first
segment is dropped. -/
theorem parse_comments_empty_segment_counterexample :
    pyFind ("#1:#2:b".data) (commentMarker 1) 0 ≠ none ∧
    pyFind ("#1:#2:b".data) (commentMarker 2) 0 ≠ none ∧
    (parse_comments_from_meta "#1:#2:b").length ≠ 2 ∧
    parse_comments_from_meta "#1:#2:b" = ["b"] := by
  refine ⟨by decide, by decide, by decide, by decide⟩

/-- Witness for `parse_comments_length_characterisation`: a marker-free
string yields at most one comment, and `#1: alpha #2: beta` yields
exactly two. -/
theorem parse_comments_length_witness :
    (parse_comments_from_meta "no markers here").length ≤ 1 ∧
    (parse_comments_from_meta (String.mk
      (commentChain 1 [" alpha ".data, " beta".data]))).length = 2 := by
  constructor
  · exact parse_comments_length_characterisation.1 "no markers here" (by decide)
  · have h2 := parse_comments_length_characterisation.2
      [" alpha ".data, " beta".data] (by decide) (by decide) (by decide) (by decide)
    rw [h2]
    decide

/-! Data model and state machine of the admin ingestion routes
(src/app/routes_admin.py) over the `pb_files` table and the relevant
file-system directories.  A `PBRec` carries the columns the claims are
about; `webpage_name` uses `""` for NULL (the code stores
`tile.get("webpage_name") or None` and guards every query with a
truthiness test, so the two are interchangeable).  The file system is a
map from paths to (already tokenized) file contents; `now` is a logical
clock standing for `datetime.utcnow()` (archive folder names and
`ingested_at`). -/

/-- Projection of a `pb_files` row (src/app/models.py) onto the columns
the verified claims mention. -/
structure PBRec where
  id : Nat
  file_name : String
  path : String
  webpage_name : String
  group_key : String
  file_mtime : Nat
  ingested_at : Nat
  is_current : Bool
  supersedes_id : Option Nat
deriving DecidableEq, Repr

/-- Application state: table rows, auto-increment counter, file system,
logical clock. -/
structure AppSt where
  recs : List PBRec
  nextId : Nat
  disk : List (String × List (List String))
  now : Nat
deriving DecidableEq, Repr

/-- Path of an uploaded temp file (`_tmp_upload_dir() / name`). -/
def tmpPath (name : String) : String := "tmp/pabulib_uploads/" ++ name

/-- Path in the canonical store (`pb_folder() / name`). -/
def pbPath (name : String) : String := "pb_files/" ++ name

/-- Path in the archive (`pb_depreciated_folder() / ts / name`). -/
def archPath (ts : Nat) (name : String) : String :=
  "pb_files_depreciated/" ++ toString ts ++ "/" ++ name

def diskLookup (disk : List (String × List (List String))) (p : String) :
    Option (List (List String)) := dictGet disk p

def diskErase (disk : List (String × List (List String))) (p : String) :
    List (String × List (List String)) :=
  disk.filter (fun e => e.1 != p)

/-- File move (`shutil.move`, with the unlink-target-first pattern used
throughout routes_admin.py).  A move whose source is missing is a no-op
here; every call site checks existence first. -/
def diskMove (disk : List (String × List (List String))) (src dst : String) :
    List (String × List (List String)) :=
  match diskLookup disk src with
  | none => disk
  | some content => (diskErase (diskErase disk dst) src) ++ [(dst, content)]

/-- Substring test (Python `pat in s`). -/
def containsSub (s pat : List Char) : Bool := (subFind pat s).isSome

/-- Upload-name guard of `upload_tiles_ingest` (routes_admin.py line 471). -/
def validPbName (name : String) : Bool :=
  name != "" && !(containsSub name.data ['/']) &&
    !(containsSub name.data ['.', '.']) && (".pb".data).isSuffixOf name.data

/-- Python `Path(p).name`. -/
def baseName (p : String) : String := (p.splitOn "/").getLastD ""

/-- Embeds `compute_webpage_name` (src/app/utils/pb_utils.py lines
85-92): returns `(webpage_name, country, unit, instance, subunit)`. -/
def compute_webpage_name (meta : List (String × String)) :
    String × String × String × String × String :=
  let country := pyStripStr ((dictGet meta "country").getD "")
  let unit := pyStripStr ((dictGet meta "unit").getD
    ((dictGet meta "city").getD ((dictGet meta "district").getD "")))
  let inst := pyStripStr ((dictGet meta "instance").getD
    ((dictGet meta "year").getD ""))
  let subunit := pyStripStr ((dictGet meta "subunit").getD "")
  let parts := [country, unit, inst, subunit].filter (fun p => p != "")
  (String.intercalate "_" parts, country, unit, inst, subunit)

/-- Rows that are current and carry the given `webpage_name`
(the repeated query `filter(webpage_name == w, is_current == True)`). -/
def currentWithWebpage (recs : List PBRec) (w : String) : List PBRec :=
  recs.filter (fun r => r.is_current && r.webpage_name == w)

/-- Positions (indexes into the record list) of rows satisfying `p`. -/
def idxFilterP (p : PBRec → Bool) : List PBRec → Nat → List Nat
  | [], _ => []
  | r :: rest, i =>
      if p r then i :: idxFilterP p rest (i + 1) else idxFilterP p rest (i + 1)

/-- SQLAlchemy `.one_or_none()`: `none` for no match, the unique index
for one match, an exception (`error`) for several. -/
def oneOrNoneIdxP (p : PBRec → Bool) (recs : List PBRec) :
    Except Unit (Option Nat) :=
  match idxFilterP p recs 0 with
  | [] => .ok none
  | [i] => .ok (some i)
  | _ => .error ()

/-- In-place update of the row at an index (SQLAlchemy attribute
assignment on a fetched row). -/
def updateAt : List PBRec → Nat → (PBRec → PBRec) → List PBRec
  | [], _, _ => []
  | r :: rest, 0, f => f r :: rest
  | r :: rest, i + 1, f => r :: updateAt rest i f

/-- Fold of `.order_by(ingested_at.desc()).first()` over rows satisfying
`p`: index and `ingested_at` of the best row (ties keep the earlier
row; SQL leaves tie order unspecified). -/
def fibdGo (p : PBRec → Bool) : List PBRec → Nat → Option (Nat × Nat) →
    Option (Nat × Nat)
  | [], _, acc => acc
  | r :: rest, i, acc =>
      let acc2 := if p r then
          match acc with
          | none => some (i, r.ingested_at)
          | some (bi, bt) =>
              if r.ingested_at > bt then some (i, r.ingested_at) else some (bi, bt)
        else acc
      fibdGo p rest (i + 1) acc2

/-- Index of the row returned by
`filter(p).order_by(ingested_at.desc()).first()`. -/
def firstIdxByIngestedDesc (p : PBRec → Bool) (recs : List PBRec) : Option Nat :=
  (fibdGo p recs 0 none).map (fun b => b.1)

/-- Row predicate of the conflict/supersession queries: current with the
given webpage name. -/
def isCurW (w : String) (r : PBRec) : Bool := r.is_current && r.webpage_name == w

/-- Result of the ingest route, as seen by the caller. -/
inductive IngestResult
  | badRequest
  | notFound
  | parseError (msg : String)
  | requiresConfirm
  | ok
deriving DecidableEq, Repr

/-- Archive step of `upload_tiles_ingest` (routes_admin.py lines
536-594): look up the unique current row for the stripped webpage name
(`one_or_none`; a multiple-rows exception is caught and the whole step
skipped), and if its recorded file exists on disk, move it into a
timestamped archive folder under its own name and point the row's `path`
there.  Failures never block the ingest. -/
def archiveStep (webpageVal : String) (st : AppSt) : AppSt :=
  if webpageVal = "" then st
  else
    match oneOrNoneIdxP (isCurW webpageVal) st.recs with
    | .error _ => st
    | .ok none => st
    | .ok (some i) =>
        match st.recs[i]? with
        | none => st
        | some r =>
            if r.path ≠ "" then
              if (diskLookup st.disk r.path).isSome then
                let prevName := if r.file_name = "" then baseName r.path else r.file_name
                let archived := archPath st.now prevName
                { st with
                  disk := diskMove st.disk r.path archived,
                  recs := updateAt st.recs i (fun r2 => { r2 with path := archived }) }
              else st
            else st

/-- Database insert of `upload_tiles_ingest` (routes_admin.py lines
657-703): fetch the latest current row with the same (non-empty)
webpage name, flip it to not-current, and insert the new row as current
with `supersedes_id` pointing at it. -/
def insertStep (name webpage gk : String) (mtime : Nat) (st : AppSt) : AppSt :=
  let prevIdx := if webpage ≠ "" then
      firstIdxByIngestedDesc (isCurW webpage) st.recs
    else none
  let supers : Option Nat := match prevIdx with
    | none => none
    | some i => (st.recs[i]?).map (fun r => r.id)
  let recs2 := match prevIdx with
    | none => st.recs
    | some i => updateAt st.recs i (fun r => { r with is_current := false })
  let newRec : PBRec := {
    id := st.nextId, file_name := name, path := pbPath name,
    webpage_name := webpage, group_key := gk, file_mtime := mtime,
    ingested_at := st.now, is_current := true, supersedes_id := supers }
  { st with recs := recs2 ++ [newRec], nextId := st.nextId + 1 }

/-- Embeds the admin ingest route `upload_tiles_ingest`
(routes_admin.py lines 467-730).  `mtime` models the moved file's
`stat().st_mtime`.  Control flow: name guard (400), temp-file existence
(404), parse at tmp (parse error aborts before any mutation), conflict
check on the stripped webpage name (409 unless confirmed), archive step,
move into the canonical folder, insert as current. -/
def upload_tiles_ingest (name : String) (confirm : Bool) (mtime : Nat)
    (st : AppSt) : IngestResult × AppSt :=
  if !(validPbName name) then (.badRequest, st)
  else
    match diskLookup st.disk (tmpPath name) with
    | none => (.notFound, st)
    | some rows =>
        match parse_pb_rows rows with
        | .error e => (.parseError e, st)
        | .ok pb =>
            let wtup := compute_webpage_name pb.meta
            let webpage := wtup.1
            let gk := build_group_key wtup.2.1 wtup.2.2.1 wtup.2.2.2.1 wtup.2.2.2.2
            let webpageVal := pyStripStr webpage
            let webpageExists :=
              webpageVal != "" && !(currentWithWebpage st.recs webpageVal).isEmpty
            if webpageExists && !confirm then (.requiresConfirm, st)
            else
              let st1 := archiveStep webpageVal st
              let st2 := { st1 with
                disk := diskMove st1.disk (tmpPath name) (pbPath name) }
              let st3 := insertStep name webpage gk mtime st2
              (.ok, { st3 with now := st3.now + 1 })

/-- Per-row body of the delete loop of `admin_delete_file`
(routes_admin.py lines 839-866), threading the `archived` variable that
the source initialises once before the loop, and the file system.  Only
rows with the given `file_name` that are current are touched. -/
def deleteGo (name : String) (ts : Nat) :
    List PBRec → Option String → List (String × List (List String)) →
    List PBRec × Option String × List (String × List (List String))
  | [], archived, disk => ([], archived, disk)
  | r :: rest, archived, disk =>
      if r.file_name == name && r.is_current then
        let step : Option String × List (String × List (List String)) :=
          if r.path ≠ "" then
            if (diskLookup disk r.path).isSome then
              let dest := archPath ts (baseName r.path)
              (some dest, diskMove disk r.path dest)
            else (archived, disk)
          else (archived, disk)
        let newPath := (match step.1 with | some a => a | none => r.path)
        let r2 := { r with is_current := false, path := newPath }
        let rec2 := deleteGo name ts rest step.1 step.2
        (r2 :: rec2.1, rec2.2)
      else
        let rec2 := deleteGo name ts rest archived disk
        (r :: rec2.1, rec2.2)

/-- Embeds the admin delete route `admin_delete_file` (routes_admin.py
lines 797-887): soft-deletes every current row with the given file name
(flip `is_current`, archive the on-disk file best-effort). -/
def admin_delete_file (name : String) (st : AppSt) : AppSt :=
  if name = "" || containsSub name.data ['/'] || containsSub name.data ['.', '.'] then
    st
  else
    let res := deleteGo name st.now st.recs none st.disk
    { st with recs := res.1, disk := res.2.2, now := st.now + 1 }

/-- Interactive admin operations of the claims. -/
inductive AdminOp
  | ingest (name : String) (confirm : Bool) (mtime : Nat)
  | deleteFile (name : String)
deriving DecidableEq, Repr

def applyOp (st : AppSt) (op : AdminOp) : AppSt :=
  match op with
  | .ingest name confirm mtime => (upload_tiles_ingest name confirm mtime st).2
  | .deleteFile name => admin_delete_file name st

def runOps (ops : List AdminOp) (st : AppSt) : AppSt := ops.foldl applyOp st

/-- C4. Parse-failure atomicity of ingest: when parsing the uploaded
file fails, the route returns the parse error with the underlying cause
and the state (database rows and file system) is exactly the input
state — nothing archived, nothing moved, nothing written.  The name and
temp-file hypotheses only steer past the 400/404 guards, which also
leave the state unchanged. -/
theorem ingest_parse_failure_no_mutation (name : String) (confirm : Bool)
    (mtime : Nat) (st : AppSt) (rows : List (List String)) (e : String)
    (hv : validPbName name = true)
    (hd : diskLookup st.disk (tmpPath name) = some rows)
    (hp : parse_pb_rows rows = .error e) :
    upload_tiles_ingest name confirm mtime st = (.parseError e, st) := by
  unfold upload_tiles_ingest
  rw [hv, hd]
  simp only [hp, Bool.not_true, Bool.false_eq_true, if_false, ite_false]

/-- Temp uploads used by the concrete scenarios: two empty files (empty
META, hence empty identity), two files with the same non-empty identity
PL/Warsaw, and one structurally invalid file. -/
def tmpDiskC : List (String × List (List String)) :=
  [(tmpPath "a.pb", []), (tmpPath "b.pb", []),
   (tmpPath "c.pb", [["meta"], ["key", "value"], ["country", "PL"], ["unit", "Warsaw"]]),
   (tmpPath "d.pb", [["meta"], ["key", "value"], ["country", "PL"], ["unit", "Warsaw"]]),
   (tmpPath "x.pb", [["projects"], ["bad", "cost"]])]

/-- Initial state of the concrete scenarios: empty table, fresh ids. -/
def stC : AppSt := AppSt.mk [] 1 tmpDiskC 0

/-- Witness for `ingest_parse_failure_no_mutation`: ingesting the
structurally invalid `x.pb` reports the header error and leaves the
state untouched. -/
theorem ingest_parse_failure_witness :
    (validPbName "x.pb" = true ∧
     diskLookup stC.disk (tmpPath "x.pb") = some [["projects"], ["bad", "cost"]] ∧
     parse_pb_rows [["projects"], ["bad", "cost"]] =
       .error "First value in PROJECTS section is not project_id: bad") ∧
    upload_tiles_ingest "x.pb" false 7 stC =
      (.parseError "First value in PROJECTS section is not project_id: bad", stC) :=
  ⟨⟨by decide, by decide, by decide⟩,
    ingest_parse_failure_no_mutation "x.pb" false 7 stC
      [["projects"], ["bad", "cost"]]
      "First value in PROJECTS section is not project_id: bad"
      (by decide) (by decide) (by decide)⟩

/-- The archive step is a no-op on an empty webpage name. -/
theorem archiveStep_empty (st : AppSt) : archiveStep "" st = st := by
  unfold archiveStep
  rw [if_pos rfl]

/-- The insert step with an empty webpage name flips no previous row:
it just appends the new current row with no supersession link. -/
theorem insertStep_empty (name gk : String) (mtime : Nat) (st : AppSt) :
    insertStep name "" gk mtime st =
      { st with
        recs := st.recs ++ [⟨st.nextId, name, pbPath name, "", gk, mtime,
          st.now, true, none⟩],
        nextId := st.nextId + 1 } := by
  unfold insertStep
  simp

/-- C10. Empty-identity ingestion bypasses versioning: when the parsed
META yields empty country/unit/instance/subunit (hence an empty
webpage name), an unconfirmed ingest never reports a conflict and never
touches existing rows: it returns success and appends a fresh row with
`is_current = true` and `supersedes_id = null` (group key `|||`), so the
number of simultaneously-current empty-identity rows grows by one on
every such call. -/
theorem ingest_empty_identity_bypasses_versioning (name : String)
    (mtime : Nat) (st : AppSt) (rows : List (List String)) (pb : PBData)
    (hv : validPbName name = true)
    (hd : diskLookup st.disk (tmpPath name) = some rows)
    (hp : parse_pb_rows rows = .ok pb)
    (hw : compute_webpage_name pb.meta = ("", "", "", "", "")) :
    (upload_tiles_ingest name false mtime st).1 = .ok ∧
    (upload_tiles_ingest name false mtime st).2.recs =
      st.recs ++ [⟨st.nextId, name, pbPath name, "", "|||", mtime, st.now,
        true, none⟩] ∧
    (currentWithWebpage (upload_tiles_ingest name false mtime st).2.recs "").length
      = (currentWithWebpage st.recs "").length + 1 := by
  have hgk : build_group_key "" "" "" "" = "|||" := by decide
  have hmain : upload_tiles_ingest name false mtime st =
      (.ok, { st with
        recs := st.recs ++ [⟨st.nextId, name, pbPath name, "", "|||", mtime,
          st.now, true, none⟩],
        nextId := st.nextId + 1,
        disk := diskMove st.disk (tmpPath name) (pbPath name),
        now := st.now + 1 }) := by
    unfold upload_tiles_ingest
    rw [hv, hd]
    simp only [hp, hw, hgk]
    have hstrip : pyStripStr "" = "" := rfl
    have hbne : (("" : String) != "") = false := by decide
    simp only [hstrip, hbne, Bool.false_and, Bool.false_eq_true, if_false,
      ite_false, archiveStep_empty, insertStep_empty]
    simp
  refine ⟨by rw [hmain], by rw [hmain], ?_⟩
  rw [hmain]
  show (currentWithWebpage (st.recs ++ [⟨st.nextId, name, pbPath name, "",
    "|||", mtime, st.now, true, none⟩]) "").length =
    (currentWithWebpage st.recs "").length + 1
  unfold currentWithWebpage
  rw [List.filter_append]
  simp

/-- Witness for `ingest_empty_identity_bypasses_versioning` at the empty
file `a.pb` in the concrete initial state. -/
theorem ingest_empty_identity_witness :
    (validPbName "a.pb" = true ∧
     diskLookup stC.disk (tmpPath "a.pb") = some [] ∧
     parse_pb_rows [] = .ok ⟨[], [], [], false, false⟩ ∧
     compute_webpage_name ([] : List (String × String)) = ("", "", "", "", "")) ∧
    ((upload_tiles_ingest "a.pb" false 1 stC).1 = .ok ∧
     (upload_tiles_ingest "a.pb" false 1 stC).2.recs =
       stC.recs ++ [⟨stC.nextId, "a.pb", pbPath "a.pb", "", "|||", 1, stC.now,
         true, none⟩] ∧
     (currentWithWebpage (upload_tiles_ingest "a.pb" false 1 stC).2.recs "").length
       = (currentWithWebpage stC.recs "").length + 1) :=
  ⟨⟨by decide, by decide, by decide, by decide⟩,
    ingest_empty_identity_bypasses_versioning "a.pb" 1 stC [] ⟨[], [], [], false, false⟩
      (by decide) (by decide) (by decide) (by decide)⟩

/-! Claim C3: the conflict check of the ingest route. -/

/-- C3 (amended). Conflict requires confirmation: when the uploaded file
parses and its stripped webpage name is non-empty, and some current row
already carries that webpage name, an unconfirmed ingest returns the
confirmation-required condition and leaves the whole state (rows, file
system, clock) exactly as it was, so in particular the existing row is
still current. -/
theorem ingest_conflict_requires_confirm (name : String) (mtime : Nat)
    (st : AppSt) (rows : List (List String)) (pb : PBData)
    (hv : validPbName name = true)
    (hd : diskLookup st.disk (tmpPath name) = some rows)
    (hp : parse_pb_rows rows = .ok pb)
    (hwne : pyStripStr (compute_webpage_name pb.meta).1 ≠ "")
    (hcur : currentWithWebpage st.recs
      (pyStripStr (compute_webpage_name pb.meta).1) ≠ []) :
    upload_tiles_ingest name false mtime st = (.requiresConfirm, st) := by
  unfold upload_tiles_ingest
  rw [hv, hd]
  simp only [hp]
  have h1 : (pyStripStr (compute_webpage_name pb.meta).1 != "") = true := by
    simpa [bne_iff_ne] using hwne
  have h2 : (currentWithWebpage st.recs
      (pyStripStr (compute_webpage_name pb.meta).1)).isEmpty = false := by
    simpa [List.isEmpty_iff] using hcur
  simp [h1, h2]

/-- State after ingesting the first PL/Warsaw file: one current row with
webpage name PL_Warsaw. -/
def stC1 : AppSt := (upload_tiles_ingest "c.pb" false 1 stC).2

/-- Parse result of the PL/Warsaw temp files of the scenario. -/
def pbC : PBData :=
  ⟨[("country", "PL"), ("unit", "Warsaw")], [], [], false, false⟩

/-- Witness for `ingest_conflict_requires_confirm`: after ingesting
`c.pb`, the unconfirmed ingest of `d.pb` (same PL/Warsaw identity) is
rejected with the confirmation-required condition and no state change. -/
theorem ingest_conflict_witness :
    (validPbName "d.pb" = true ∧
     diskLookup stC1.disk (tmpPath "d.pb") =
       some [["meta"], ["key", "value"], ["country", "PL"], ["unit", "Warsaw"]] ∧
     parse_pb_rows [["meta"], ["key", "value"], ["country", "PL"], ["unit", "Warsaw"]] =
       .ok pbC ∧
     pyStripStr (compute_webpage_name pbC.meta).1 ≠ "" ∧
     currentWithWebpage stC1.recs (pyStripStr (compute_webpage_name pbC.meta).1) ≠ []) ∧
    upload_tiles_ingest "d.pb" false 2 stC1 = (.requiresConfirm, stC1) :=
  ⟨⟨by decide, by decide, by decide, by decide, by decide⟩,
    ingest_conflict_requires_confirm "d.pb" 2 stC1
      [["meta"], ["key", "value"], ["country", "PL"], ["unit", "Warsaw"]] pbC
      (by decide) (by decide) (by decide) (by decide) (by decide)⟩

/-- C3 counterexample to the claim as stated: both empty files share the
identity (webpage name empty, group key the empty-join).  After the
first ingest, exactly one current row for that identity exists, yet the
unconfirmed ingest of the second file with the same identity returns
success instead of the confirmation-required condition. -/
theorem ingest_conflict_counterexample :
    (((upload_tiles_ingest "a.pb" false 1 stC).2.recs.filter
        (fun r => r.is_current && r.webpage_name == "" && r.group_key == "|||")).length
      = 1) ∧
    (upload_tiles_ingest "b.pb" false 2
      (upload_tiles_ingest "a.pb" false 1 stC).2).1 = .ok := by
  decide

/-! Claim C1: current-record uniqueness under admin operations. -/

/-- Updating one row with a function that leaves the filter predicate
unchanged keeps the filtered count. -/
theorem filter_updateAt_congr (p : PBRec → Bool) (f : PBRec → PBRec)
    (hf : ∀ r, p (f r) = p r) :
    ∀ (l : List PBRec) (i : Nat),
      ((updateAt l i f).filter p).length = (l.filter p).length := by
  intro l
  induction l with
  | nil => intro i; rfl
  | cons r rest ih =>
      intro i
      cases i with
      | zero =>
          simp only [updateAt, List.filter_cons, hf r]
          split <;> simp
      | succ j =>
          simp only [updateAt, List.filter_cons]
          split <;> simp [ih j]

/-- Updating one row with a function whose result never satisfies the
filter predicate cannot increase the filtered count. -/
theorem filter_updateAt_le (p : PBRec → Bool) (f : PBRec → PBRec)
    (hf : ∀ r, p (f r) = false) :
    ∀ (l : List PBRec) (i : Nat),
      ((updateAt l i f).filter p).length ≤ (l.filter p).length := by
  intro l
  induction l with
  | nil => intro i; exact Nat.le_refl _
  | cons r rest ih =>
      intro i
      cases i with
      | zero =>
          simp only [updateAt, List.filter_cons, hf r, Bool.false_eq_true,
            if_false]
          split <;> simp
      | succ j =>
          simp only [updateAt, List.filter_cons]
          split
          · simpa using ih j
          · exact ih j

/-- A row at a valid index that satisfies the predicate forces a
positive filtered count. -/
theorem filter_pos_of_getElem (p : PBRec → Bool) (l : List PBRec) (i : Nat)
    (r : PBRec) (h : l[i]? = some r) (hp : p r = true) :
    1 ≤ (l.filter p).length := by
  obtain ⟨hlt, he⟩ := List.getElem?_eq_some.mp h
  have hm : r ∈ l := he ▸ l.getElem_mem hlt
  have hmf : r ∈ l.filter p := List.mem_filter.mpr ⟨hm, hp⟩
  have := List.length_pos.mpr (List.ne_nil_of_mem hmf)
  omega

/-- Flipping the unique matching row (in a list with at most one match)
with a function that never matches empties the filter. -/
theorem filter_updateAt_zero (p : PBRec → Bool) (f : PBRec → PBRec)
    (hf : ∀ r, p (f r) = false) :
    ∀ (l : List PBRec) (i : Nat) (r : PBRec),
      l[i]? = some r → p r = true → (l.filter p).length ≤ 1 →
      ((updateAt l i f).filter p).length = 0 := by
  intro l
  induction l with
  | nil => intro i r h; simp at h
  | cons a rest ih =>
      intro i r h hp hle
      cases i with
      | zero =>
          have ha : a = r := by simpa using h
          have hpa : p a = true := by rw [ha]; exact hp
          simp only [updateAt, List.filter_cons, hf a]
          have hR : (rest.filter p).length + 1 ≤ 1 := by
            simpa [List.filter_cons, hpa] using hle
          simp only [Bool.false_eq_true, if_false]
          omega
      | succ j =>
          have h2 : rest[j]? = some r := by simpa using h
          by_cases hpa : p a = true
          · have h1 : 1 ≤ (rest.filter p).length :=
              filter_pos_of_getElem p rest j r h2 hp
            have hR : (rest.filter p).length + 1 ≤ 1 := by
              simpa [List.filter_cons, hpa] using hle
            omega
          · have hle2 : (rest.filter p).length ≤ 1 := by
              simpa [List.filter_cons, hpa] using hle
            have h0 := ih j r h2 hp hle2
            simp [updateAt, List.filter_cons, hpa, h0]

/-- If the latest-row fold returns nothing, the accumulator was empty
and no row of the list matches. -/
theorem fibdGo_none_sound (p : PBRec → Bool) :
    ∀ (l : List PBRec) (j : Nat) (acc : Option (Nat × Nat)),
      fibdGo p l j acc = none → acc = none ∧ ∀ r ∈ l, p r = false := by
  intro l
  induction l with
  | nil =>
      intro j acc h
      exact ⟨h, by intro r hr; simp at hr⟩
  | cons a rest ih =>
      intro j acc h
      simp only [fibdGo] at h
      by_cases hp : p a = true
      · exfalso
        have h2 := (ih (j + 1) _ h).1
        cases acc with
        | none => simp [hp] at h2
        | some b =>
            obtain ⟨b1, b2⟩ := b
            simp only [hp, if_true] at h2
            split at h2 <;> simp_all
      · have hpa : p a = false := by simpa using hp
        rw [hpa] at h
        simp only [Bool.false_eq_true, if_false] at h
        obtain ⟨ha, hrest⟩ := ih (j + 1) acc h
        refine ⟨ha, ?_⟩
        intro r hr
        rcases List.mem_cons.mp hr with h1 | h1
        · rw [h1]; exact hpa
        · exact hrest r h1

/-- Soundness of the latest-row fold for an arbitrary index property
`Q` holding on the accumulator and on every matching position. -/
theorem fibdGo_some_sound (p : PBRec → Bool) (Q : Nat → Prop) :
    ∀ (l : List PBRec) (j : Nat) (acc : Option (Nat × Nat)),
      (∀ bi bt, acc = some (bi, bt) → Q bi) →
      (∀ (k : Nat) (r : PBRec), l[k]? = some r → p r = true → Q (j + k)) →
      ∀ i t, fibdGo p l j acc = some (i, t) → Q i := by
  intro l
  induction l with
  | nil =>
      intro j acc hacc hl i t h
      exact hacc i t h
  | cons a rest ih =>
      intro j acc hacc hl i t h
      simp only [fibdGo] at h
      refine ih (j + 1) _ ?_ ?_ i t h
      · intro bi bt hb
        by_cases hp : p a = true
        · have hQj : Q j := by simpa using hl 0 a (by simp) hp
          cases acc with
          | none =>
              simp only [hp, if_true, Option.some.injEq, Prod.mk.injEq] at hb
              rw [← hb.1]; exact hQj
          | some b =>
              obtain ⟨b1, b2⟩ := b
              simp only [hp, if_true] at hb
              split at hb
              · simp only [Option.some.injEq, Prod.mk.injEq] at hb
                rw [← hb.1]; exact hQj
              · simp only [Option.some.injEq, Prod.mk.injEq] at hb
                rw [← hb.1]; exact hacc b1 b2 rfl
        · have hpa : p a = false := by simpa using hp
          rw [hpa] at hb
          simp only [Bool.false_eq_true, if_false] at hb
          exact hacc bi bt hb
      · intro k r hk hp2
        have he : j + 1 + k = j + (k + 1) := by omega
        rw [he]
        exact hl (k + 1) r (by simpa using hk) hp2

/-- When the latest-current query finds nothing, no row matches. -/
theorem firstIdx_none_sound (p : PBRec → Bool) (recs : List PBRec)
    (h : firstIdxByIngestedDesc p recs = none) :
    ∀ r ∈ recs, p r = false := by
  unfold firstIdxByIngestedDesc at h
  cases hg : fibdGo p recs 0 none with
  | none => exact (fibdGo_none_sound p recs 0 none hg).2
  | some b => rw [hg] at h; simp at h

/-- When the latest-current query returns an index, that index holds a
matching row. -/
theorem firstIdx_some_sound (p : PBRec → Bool) (recs : List PBRec) (i : Nat)
    (h : firstIdxByIngestedDesc p recs = some i) :
    ∃ r, recs[i]? = some r ∧ p r = true := by
  unfold firstIdxByIngestedDesc at h
  cases hg : fibdGo p recs 0 none with
  | none => rw [hg] at h; simp at h
  | some b =>
      obtain ⟨bi, bt⟩ := b
      rw [hg] at h
      simp only [Option.map_some', Option.some.injEq] at h
      rw [← h]
      refine fibdGo_some_sound p
        (fun n => ∃ r, recs[n]? = some r ∧ p r = true) recs 0 none
        (fun b1 b2 hb => by simp at hb)
        (fun k r hk hp => ⟨r, by simpa using hk, hp⟩) bi bt hg

/-- The archive step only rewrites the `path` of a row, so it preserves
the count of current rows carrying any given webpage name. -/
theorem archiveStep_count (v : String) (st : AppSt) (w : String) :
    (currentWithWebpage (archiveStep v st).recs w).length
      = (currentWithWebpage st.recs w).length := by
  unfold archiveStep currentWithWebpage
  split
  · rfl
  · split
    · rfl
    · rfl
    · split
      · rfl
      · split
        · split
          · dsimp only
            apply filter_updateAt_congr
            intro r
            rfl
          · rfl
        · rfl

/-- The insert step preserves at-most-one-current per non-empty webpage
name: it flips the unique previous current row (when one exists) before
appending the new current row. -/
theorem insertStep_count (name wp gk : String) (mt : Nat) (st : AppSt)
    (w : String) (hw : w ≠ "")
    (h : (currentWithWebpage st.recs w).length ≤ 1) :
    (currentWithWebpage (insertStep name wp gk mt st).recs w).length ≤ 1 := by
  unfold currentWithWebpage at h ⊢
  unfold insertStep
  by_cases hwp : wp = ""
  · subst hwp
    simp only [ne_eq, not_true_eq_false, if_false, reduceIte]
    have hnw : (("" : String) == w) = false := by
      simp [beq_iff_eq]
      intro he
      exact hw he.symm
    simp [List.filter_append, List.filter_cons, hnw]
    exact h
  · rw [if_pos hwp]
    cases hprev : firstIdxByIngestedDesc (isCurW wp) st.recs with
    | none =>
        simp only
        by_cases hww : w = wp
        · subst hww
          have hall := firstIdx_none_sound (isCurW w) st.recs hprev
          have h0 : (st.recs.filter
              (fun r => r.is_current && r.webpage_name == w)) = [] := by
            rw [List.eq_nil_iff_forall_not_mem]
            intro r hr
            obtain ⟨hm, hp⟩ := List.mem_filter.mp hr
            have hfail := hall r hm
            rw [isCurW] at hfail
            rw [hfail] at hp
            exact Bool.false_ne_true hp
          simp [List.filter_append, List.filter_cons, h0, beq_iff_eq]
        · have hnw : (wp == w) = false := by
            simp [beq_iff_eq]
            intro he
            exact hww he.symm
          simp [List.filter_append, List.filter_cons, hnw]
          exact h
    | some i =>
        obtain ⟨r0, hr0, hpr0⟩ := firstIdx_some_sound (isCurW wp) st.recs i hprev
        simp only
        by_cases hww : w = wp
        · subst hww
          have h0 : ((updateAt st.recs i
              (fun r => { r with is_current := false })).filter
              (fun r => r.is_current && r.webpage_name == w)).length = 0 :=
            filter_updateAt_zero _ _ (fun r => by simp) st.recs i r0 hr0
              (by simpa [isCurW] using hpr0) h
          simp [List.filter_append, List.filter_cons, h0]
        · have hle := filter_updateAt_le
            (fun r => r.is_current && r.webpage_name == w)
            (fun r => { r with is_current := false }) (fun r => by simp)
            st.recs i
          have hnw : (wp == w) = false := by
            simp [beq_iff_eq]
            intro he
            exact hww he.symm
          simp [List.filter_append, List.filter_cons, hnw]
          exact le_trans hle h

/-- One ingest call preserves at-most-one-current per non-empty webpage
name, whatever it returns. -/
theorem ingest_count_le (name : String) (confirm : Bool) (mtime : Nat)
    (st : AppSt) (w : String) (hw : w ≠ "")
    (h : (currentWithWebpage st.recs w).length ≤ 1) :
    (currentWithWebpage
      (upload_tiles_ingest name confirm mtime st).2.recs w).length ≤ 1 := by
  unfold upload_tiles_ingest
  split
  · exact h
  · split
    · exact h
    · split
      · exact h
      · dsimp only
        split
        · exact h
        · refine insertStep_count _ _ _ _ _ w hw ?_
          show (currentWithWebpage (archiveStep _ st).recs w).length ≤ 1
          rw [archiveStep_count]
          exact h

/-- The delete loop only flips rows to not-current (and re-points their
paths), so it cannot increase any filtered current count. -/
theorem deleteGo_count_le (name : String) (ts : Nat) (q : PBRec → Bool)
    (hq : ∀ (r : PBRec) (s : String),
      q { r with is_current := false, path := s } = false) :
    ∀ (recs : List PBRec) (archived : Option String)
      (disk : List (String × List (List String))),
      (((deleteGo name ts recs archived disk).1).filter q).length
        ≤ (recs.filter q).length := by
  intro recs
  induction recs with
  | nil => intro archived disk; exact Nat.le_refl _
  | cons r rest ih =>
      intro archived disk
      rw [deleteGo]
      split
      · dsimp only
        simp only [List.filter_cons]
        rw [hq r]
        simp only [Bool.false_eq_true, if_false]
        by_cases hqr : q r = true
        · rw [if_pos hqr, List.length_cons]
          refine le_trans (ih _ _) ?_
          omega
        · rw [if_neg hqr]
          exact ih _ _
      · dsimp only
        simp only [List.filter_cons]
        by_cases hqr : q r = true
        · rw [if_pos hqr, if_pos hqr, List.length_cons, List.length_cons]
          exact Nat.succ_le_succ (ih archived disk)
        · rw [if_neg hqr, if_neg hqr]
          exact ih archived disk

/-- One delete call preserves at-most-one-current per webpage name. -/
theorem delete_count_le (name : String) (st : AppSt) (w : String)
    (h : (currentWithWebpage st.recs w).length ≤ 1) :
    (currentWithWebpage (admin_delete_file name st).recs w).length ≤ 1 := by
  unfold admin_delete_file
  split
  · exact h
  · dsimp only
    unfold currentWithWebpage at h ⊢
    refine le_trans ?_ h
    exact deleteGo_count_le name st.now _ (fun r s => by simp)
      st.recs none st.disk

/-- C1 (amended). Current-record uniqueness for ingest and delete: for
every non-empty webpage name, if at most one row carries it as current
in the initial state, then after any finite sequence of admin ingest
and delete operations at most one row carries it as current.  (The
batch refresh keys currency on `group_key` and is treated with C8; the
empty webpage name is excluded, as the counterexample shows the
property fails for it.) -/
theorem runOps_current_uniqueness (ops : List AdminOp) (st : AppSt)
    (hinv : ∀ v, v ≠ "" → (currentWithWebpage st.recs v).length ≤ 1)
    (w : String) (hw : w ≠ "") :
    (currentWithWebpage (runOps ops st).recs w).length ≤ 1 := by
  induction ops generalizing st with
  | nil => exact hinv w hw
  | cons op rest ih =>
      simp only [runOps, List.foldl_cons]
      refine ih (applyOp st op) ?_
      intro v hv
      cases op with
      | ingest name confirm mtime =>
          exact ingest_count_le name confirm mtime st v hv (hinv v hv)
      | deleteFile name =>
          exact delete_count_le name st v (hinv v hv)

/-- Witness for `runOps_current_uniqueness`: the PL/Warsaw identity
stays at most once current across an ingest, a confirmed supersession
and a delete, starting from the empty table. -/
theorem runOps_current_uniqueness_witness :
    (currentWithWebpage (runOps [AdminOp.ingest "c.pb" false 1,
      AdminOp.ingest "d.pb" true 2, AdminOp.deleteFile "d.pb"] stC).recs
      "PL_Warsaw").length ≤ 1 :=
  runOps_current_uniqueness
    [AdminOp.ingest "c.pb" false 1, AdminOp.ingest "d.pb" true 2,
     AdminOp.deleteFile "d.pb"] stC
    (fun v hv => by simp [stC, currentWithWebpage]) "PL_Warsaw"
    (by decide)

/-- C1 counterexample to the claim as stated: two unconfirmed ingests
of empty-identity files leave two rows that are simultaneously current
for the same identity (webpage name empty, group key the empty join),
so the at-most-one-current invariant fails for that identity. -/
theorem current_uniqueness_counterexample :
    ((runOps [AdminOp.ingest "a.pb" false 1, AdminOp.ingest "b.pb" false 2]
        stC).recs.filter
      (fun r => r.is_current && r.webpage_name == "" && r.group_key == "|||")).length
      = 2 := by
  decide

/-! Claim C2: confirmed supersession of the unique current row. -/

/-- A filter over rows that all fail the predicate is empty. -/
theorem filter_none_of {α : Type} (q : α → Bool) (l : List α)
    (h : ∀ r ∈ l, q r = false) : l.filter q = [] := by
  rw [List.eq_nil_iff_forall_not_mem]
  intro x hx
  obtain ⟨hm, hq⟩ := List.mem_filter.mp hx
  rw [h x hm] at hq
  exact Bool.false_ne_true hq

/-- Index collection over rows that all fail the predicate is empty. -/
theorem idxFilterP_nomatch (P : PBRec → Bool) :
    ∀ (l : List PBRec) (j : Nat), (∀ r ∈ l, P r = false) →
      idxFilterP P l j = [] := by
  intro l
  induction l with
  | nil => intro j h; rfl
  | cons a t ih =>
      intro j h
      simp only [idxFilterP, h a (List.mem_cons_self a t), Bool.false_eq_true,
        if_false]
      exact ih (j + 1) (fun r hr => h r (List.mem_cons_of_mem a hr))

/-- Index collection over a list with a single matching row yields
exactly its position. -/
theorem idxFilterP_single (P : PBRec → Bool) (R : PBRec) (hR : P R = true)
    (post : List PBRec) (hpost : ∀ r ∈ post, P r = false) :
    ∀ (pre : List PBRec) (j : Nat), (∀ r ∈ pre, P r = false) →
      idxFilterP P (pre ++ R :: post) j = [j + pre.length] := by
  intro pre
  induction pre with
  | nil =>
      intro j hpre
      simp only [List.nil_append, idxFilterP, hR, if_true, List.length_nil,
        Nat.add_zero]
      rw [idxFilterP_nomatch P post (j + 1) hpost]
  | cons a t ih =>
      intro j hpre
      simp only [List.cons_append, idxFilterP,
        hpre a (List.mem_cons_self a t), Bool.false_eq_true, if_false,
        List.append_eq]
      rw [ih (j + 1) (fun r hr => hpre r (List.mem_cons_of_mem a hr))]
      simp only [List.cons.injEq, List.length_cons, and_true]
      omega

/-- Lookup at the position of the distinguished middle row. -/
theorem getElem?_middle (R : PBRec) (post : List PBRec) :
    ∀ pre : List PBRec, (pre ++ R :: post)[pre.length]? = some R := by
  intro pre
  induction pre with
  | nil => simp
  | cons a t ih => simpa using ih

/-- Updating at the position of the distinguished middle row. -/
theorem updateAt_middle (f : PBRec → PBRec) (R : PBRec) (post : List PBRec) :
    ∀ pre : List PBRec,
      updateAt (pre ++ R :: post) pre.length f = pre ++ f R :: post := by
  intro pre
  induction pre with
  | nil => rfl
  | cons a t ih => simp [updateAt, ih]

/-- The latest-row fold ignores rows that fail the predicate. -/
theorem fibdGo_nomatch (P : PBRec → Bool) :
    ∀ (l : List PBRec) (j : Nat) (acc : Option (Nat × Nat)),
      (∀ r ∈ l, P r = false) → fibdGo P l j acc = acc := by
  intro l
  induction l with
  | nil => intro j acc h; rfl
  | cons a t ih =>
      intro j acc h
      simp only [fibdGo, h a (List.mem_cons_self a t), Bool.false_eq_true,
        if_false]
      exact ih (j + 1) acc (fun r hr => h r (List.mem_cons_of_mem a hr))

/-- The latest-row fold skips a non-matching prefix, advancing the
index counter. -/
theorem fibdGo_pre (P : PBRec → Bool) (rest : List PBRec) :
    ∀ (pre : List PBRec) (j : Nat), (∀ r ∈ pre, P r = false) →
      fibdGo P (pre ++ rest) j none = fibdGo P rest (j + pre.length) none := by
  intro pre
  induction pre with
  | nil => intro j h; simp
  | cons a t ih =>
      intro j h
      simp only [List.cons_append, fibdGo, h a (List.mem_cons_self a t),
        Bool.false_eq_true, if_false, List.append_eq]
      rw [ih (j + 1) (fun r hr => h r (List.mem_cons_of_mem a hr))]
      have he : j + 1 + t.length = j + (t.length + 1) := by omega
      rw [he]
      rfl

/-- The latest-current query over a list with a single matching row
returns exactly its position. -/
theorem firstIdx_single (P : PBRec → Bool) (R : PBRec) (hR : P R = true)
    (post : List PBRec) (hpost : ∀ r ∈ post, P r = false)
    (pre : List PBRec) (hpre : ∀ r ∈ pre, P r = false) :
    firstIdxByIngestedDesc P (pre ++ R :: post) = some pre.length := by
  unfold firstIdxByIngestedDesc
  rw [fibdGo_pre P (R :: post) pre 0 hpre]
  simp only [fibdGo, hR, if_true]
  rw [fibdGo_nomatch P post _ _ hpost]
  simp

/-- The one-or-none query over a list with a single matching row
returns exactly its position. -/
theorem oneOrNone_single (P : PBRec → Bool) (R : PBRec) (hR : P R = true)
    (post : List PBRec) (hpost : ∀ r ∈ post, P r = false)
    (pre : List PBRec) (hpre : ∀ r ∈ pre, P r = false) :
    oneOrNoneIdxP P (pre ++ R :: post) = .ok (some pre.length) := by
  unfold oneOrNoneIdxP
  rw [idxFilterP_single P R hR post hpost pre 0 hpre]
  simp only [Nat.zero_add]

/-- Characterisation of the archive step on a state whose table holds
exactly one row matching the stripped webpage name, current, with a
non-empty file name and a file present on disk: that row's path is
re-pointed into the timestamped archive folder and the file is moved. -/
theorem archiveStep_single (w : String) (st : AppSt) (pre post : List PBRec)
    (R : PBRec) (hwne : w ≠ "")
    (hrecs : st.recs = pre ++ R :: post)
    (hR : isCurW w R = true)
    (hpre : ∀ r ∈ pre, isCurW w r = false)
    (hpost : ∀ r ∈ post, isCurW w r = false)
    (hRpath : R.path ≠ "")
    (hRdisk : (diskLookup st.disk R.path).isSome = true)
    (hRfn : R.file_name ≠ "") :
    archiveStep w st = { st with
      disk := diskMove st.disk R.path (archPath st.now R.file_name),
      recs := pre ++ { R with path := archPath st.now R.file_name } :: post } := by
  unfold archiveStep
  rw [if_neg hwne, hrecs,
    oneOrNone_single (isCurW w) R hR post hpost pre hpre]
  dsimp only
  rw [getElem?_middle R post pre]
  dsimp only
  rw [if_pos hRpath, if_pos hRdisk, if_neg hRfn, updateAt_middle]

/-- Characterisation of the insert step on a state whose table holds
exactly one row matching the (non-empty) webpage name, current: that
row is flipped to not-current and the new current row is appended with
`supersedes_id` pointing at it. -/
theorem insertStep_single (name w gk : String) (mt : Nat) (st : AppSt)
    (pre post : List PBRec) (R : PBRec) (hwne : w ≠ "")
    (hrecs : st.recs = pre ++ R :: post)
    (hR : isCurW w R = true)
    (hpre : ∀ r ∈ pre, isCurW w r = false)
    (hpost : ∀ r ∈ post, isCurW w r = false) :
    insertStep name w gk mt st = { st with
      recs := (pre ++ { R with is_current := false } :: post) ++
        [⟨st.nextId, name, pbPath name, w, gk, mt, st.now, true, some R.id⟩],
      nextId := st.nextId + 1 } := by
  unfold insertStep
  rw [if_pos hwne, hrecs,
    firstIdx_single (isCurW w) R hR post hpost pre hpre]
  dsimp only
  rw [getElem?_middle R post pre, updateAt_middle]
  rfl

/-- C2. Confirmed supersession postcondition: starting from a table
with exactly one row for the (non-empty, strip-fixed) webpage identity
— a current row whose file name is non-empty and whose recorded file is
on disk — a confirmed ingest of a new file with the same identity
returns success and produces exactly two rows for the identity: the
original, now not current with its path re-pointed into the timestamped
archive folder, and a new current row with `supersedes_id` equal to the
original row's id. -/
theorem ingest_confirmed_supersession (name : String) (mtime : Nat)
    (st : AppSt) (rows : List (List String)) (pb : PBData)
    (w c u iv sv : String) (pre post : List PBRec) (R : PBRec)
    (hv : validPbName name = true)
    (hd : diskLookup st.disk (tmpPath name) = some rows)
    (hp : parse_pb_rows rows = .ok pb)
    (hw : compute_webpage_name pb.meta = (w, c, u, iv, sv))
    (hwne : w ≠ "")
    (hws : pyStripStr w = w)
    (hrecs : st.recs = pre ++ R :: post)
    (hRcur : R.is_current = true)
    (hRw : R.webpage_name = w)
    (hpre : ∀ r ∈ pre, r.webpage_name ≠ w)
    (hpost : ∀ r ∈ post, r.webpage_name ≠ w)
    (hRpath : R.path ≠ "")
    (hRdisk : (diskLookup st.disk R.path).isSome = true)
    (hRfn : R.file_name ≠ "") :
    (upload_tiles_ingest name true mtime st).1 = .ok ∧
    (upload_tiles_ingest name true mtime st).2.recs =
      pre ++ ({ R with path := archPath st.now R.file_name, is_current := false } ::
        (post ++ [⟨st.nextId, name, pbPath name, w,
          build_group_key c u iv sv, mtime, st.now, true, some R.id⟩])) ∧
    ((upload_tiles_ingest name true mtime st).2.recs.filter
      (fun r => r.webpage_name == w)).length = 2 := by
  have hR : isCurW w R = true := by simp [isCurW, hRcur, hRw]
  have hPpre : ∀ r ∈ pre, isCurW w r = false := by
    intro r hr
    have hb : (r.webpage_name == w) = false :=
      beq_eq_false_iff_ne.mpr (hpre r hr)
    simp [isCurW, hb]
  have hPpost : ∀ r ∈ post, isCurW w r = false := by
    intro r hr
    have hb : (r.webpage_name == w) = false :=
      beq_eq_false_iff_ne.mpr (hpost r hr)
    simp [isCurW, hb]
  have hR1 : isCurW w { R with path := archPath st.now R.file_name } = true := by
    simp [isCurW, hRcur, hRw]
  have hmain : upload_tiles_ingest name true mtime st =
      (.ok, { st with
        recs := pre ++ ({ R with path := archPath st.now R.file_name, is_current := false } ::
          (post ++ [⟨st.nextId, name, pbPath name, w,
            build_group_key c u iv sv, mtime, st.now, true, some R.id⟩])),
        nextId := st.nextId + 1,
        disk := diskMove (diskMove st.disk R.path
          (archPath st.now R.file_name)) (tmpPath name) (pbPath name),
        now := st.now + 1 }) := by
    unfold upload_tiles_ingest
    rw [hv, hd]
    simp only [hp, hw, hws, Bool.not_true, Bool.and_false,
      Bool.false_eq_true, if_false]
    rw [archiveStep_single w st pre post R hwne hrecs hR hPpre hPpost hRpath
      hRdisk hRfn]
    rw [insertStep_single name w (build_group_key c u iv sv) mtime _ pre post
      { R with path := archPath st.now R.file_name } hwne rfl hR1 hPpre hPpost]
    simp [List.append_assoc]
  have hqpre : pre.filter (fun r => r.webpage_name == w) = [] :=
    filter_none_of _ pre (fun r hr => beq_eq_false_iff_ne.mpr (hpre r hr))
  have hqpost : post.filter (fun r => r.webpage_name == w) = [] :=
    filter_none_of _ post (fun r hr => beq_eq_false_iff_ne.mpr (hpost r hr))
  refine ⟨by rw [hmain], by rw [hmain], ?_⟩
  rw [hmain]
  dsimp only
  rw [List.filter_append]
  simp [List.filter_cons, List.filter_append, hqpre, hqpost, hRw]

/-- The single current row after ingesting `c.pb` into the empty
scenario state. -/
def RC2 : PBRec :=
  ⟨1, "c.pb", "pb_files/c.pb", "PL_Warsaw", "pl|warsaw||", 1, 0, true, none⟩

/-- Witness for `ingest_confirmed_supersession`: the confirmed ingest
of `d.pb` over the single current PL/Warsaw row archives the old row
and appends the superseding one. -/
theorem ingest_confirmed_supersession_witness :
    (validPbName "d.pb" = true ∧
     diskLookup stC1.disk (tmpPath "d.pb") =
       some [["meta"], ["key", "value"], ["country", "PL"], ["unit", "Warsaw"]] ∧
     parse_pb_rows [["meta"], ["key", "value"], ["country", "PL"],
       ["unit", "Warsaw"]] = .ok pbC ∧
     compute_webpage_name pbC.meta = ("PL_Warsaw", "PL", "Warsaw", "", "") ∧
     ("PL_Warsaw" : String) ≠ "" ∧
     pyStripStr "PL_Warsaw" = "PL_Warsaw" ∧
     stC1.recs = [] ++ RC2 :: [] ∧
     RC2.is_current = true ∧
     RC2.webpage_name = "PL_Warsaw" ∧
     (∀ r ∈ ([] : List PBRec), r.webpage_name ≠ "PL_Warsaw") ∧
     RC2.path ≠ "" ∧
     (diskLookup stC1.disk RC2.path).isSome = true ∧
     RC2.file_name ≠ "") ∧
    ((upload_tiles_ingest "d.pb" true 5 stC1).1 = .ok ∧
     (upload_tiles_ingest "d.pb" true 5 stC1).2.recs =
       [] ++ ({ RC2 with path := archPath stC1.now RC2.file_name, is_current := false } ::
         ([] ++ [⟨stC1.nextId, "d.pb", pbPath "d.pb", "PL_Warsaw",
           build_group_key "PL" "Warsaw" "" "", 5, stC1.now, true, some RC2.id⟩])) ∧
     ((upload_tiles_ingest "d.pb" true 5 stC1).2.recs.filter
       (fun r => r.webpage_name == "PL_Warsaw")).length = 2) :=
  ⟨⟨by decide, by decide, by decide, by decide, by decide, by decide,
    by decide, by decide, by decide, by decide, by decide, by decide,
    by decide⟩,
    ingest_confirmed_supersession "d.pb" 5 stC1
      [["meta"], ["key", "value"], ["country", "PL"], ["unit", "Warsaw"]]
      pbC "PL_Warsaw" "PL" "Warsaw" "" "" [] [] RC2
      (by decide) (by decide) (by decide) (by decide) (by decide) (by decide)
      (by decide) (by decide) (by decide) (by decide) (by decide) (by decide)
      (by decide) (by decide)⟩

/-! Claim C8: the batch refresh of db_refresh.py. -/

/-- A PB file visible to the refresh script: its name in the PB folder,
its tokenized content, and its stat mtime. -/
structure RFile where
  name : String
  rows : List (List String)
  mtime : Nat
deriving DecidableEq, Repr

/-- Database state seen by the refresh script. -/
structure RefreshDB where
  recs : List PBRec
  nextId : Nat
deriving DecidableEq, Repr

/-- Embeds `ingest_file` (db_refresh.py lines 123-194) projected onto
the columns of the claim: parse, derive the webpage name and group key,
and build the new row (current, no supersession link yet). -/
def ingestFileRec (db : RefreshDB) (now : Nat) (f : RFile) :
    Except String PBRec :=
  match parse_pb_rows f.rows with
  | .error e => .error e
  | .ok pb =>
      let wt := compute_webpage_name pb.meta
      .ok ⟨db.nextId, f.name, pbPath f.name, wt.1,
        build_group_key wt.2.1 wt.2.2.1 wt.2.2.2.1 wt.2.2.2.2, f.mtime, now,
        true, none⟩

/-- Row predicate of the refresh queries: current with the given group
key. -/
def isCurG (g : String) (r : PBRec) : Bool := r.is_current && r.group_key == g

/-- The not-newer-than-last-refresh skip test of the loop. -/
def skipOld (last : Option Nat) (m : Nat) : Bool :=
  match last with
  | some l => m ≤ l
  | none => false

/-- Main loop of `refresh` (db_refresh.py lines 236-311): skip files
not newer than the last refresh, parse (a failure rolls the session
back to the committed snapshot `recs0`), fetch the unique current row
of the group (`one_or_none`; several rows raise, also rolling back),
apply the idempotency guard, and insert the new row as current with
the supersession link, recording the touched group. -/
def refreshLoop (now : Nat) (last : Option Nat) (recs0 : List PBRec) :
    List RFile → RefreshDB → List String → RefreshDB × List String
  | [], db, touched => (db, touched)
  | f :: rest, db, touched =>
      if skipOld last f.mtime then
        refreshLoop now last recs0 rest db touched
      else
        match ingestFileRec db now f with
        | .error _ =>
            refreshLoop now last recs0 rest { db with recs := recs0 } touched
        | .ok rec =>
            match oneOrNoneIdxP (isCurG rec.group_key) db.recs with
            | .error _ =>
                refreshLoop now last recs0 rest { db with recs := recs0 } touched
            | .ok none =>
                refreshLoop now last recs0 rest
                  ⟨db.recs ++ [rec], db.nextId + 1⟩
                  (touched ++ [rec.group_key])
            | .ok (some i) =>
                match db.recs[i]? with
                | none =>
                    refreshLoop now last recs0 rest { db with recs := recs0 }
                      touched
                | some prev =>
                    if rec.file_mtime ≤ prev.file_mtime ∧ prev.path = rec.path
                    then refreshLoop now last recs0 rest db touched
                    else
                      refreshLoop now last recs0 rest
                        ⟨db.recs ++
                          [{ rec with supersedes_id := some prev.id }],
                          db.nextId + 1⟩
                        (touched ++ [rec.group_key])

/-- Fold of `order_by(file_mtime.desc(), id.desc()).all()` followed by
`items[0]`: the lexicographically greatest `(file_mtime, id)` of the
list (ties keep the earlier row). -/
def latestGo : List PBRec → Option (Nat × Nat) → Option (Nat × Nat)
  | [], acc => acc
  | r :: rest, acc =>
      let acc2 := match acc with
        | none => some (r.file_mtime, r.id)
        | some (m, i) =>
            if m < r.file_mtime ∨ (r.file_mtime = m ∧ i < r.id) then
              some (r.file_mtime, r.id)
            else some (m, i)
      latestGo rest acc2

/-- Embeds `mark_group_current` (db_refresh.py lines 196-207): every
row of the group gets `is_current := (id == latest_id)` where the
latest row maximises `(file_mtime, id)`. -/
def mark_group_current (g : String) (recs : List PBRec) : List PBRec :=
  match latestGo (recs.filter (fun r => r.group_key == g)) none with
  | none => recs
  | some (_, lid) =>
      recs.map (fun r =>
        if r.group_key == g then { r with is_current := r.id == lid } else r)

/-- The mark loop over all touched groups (db_refresh.py lines
314-320). -/
def markAll (touched : List String) (recs : List PBRec) : List PBRec :=
  touched.foldl (fun rs g => mark_group_current g rs) recs

/-- Embeds the missing-file sweep (db_refresh.py lines 344-361):
current rows whose file name is not among the present PB files are
flipped to not-current. -/
def sweepMissing (present : List String) (recs : List PBRec) : List PBRec :=
  recs.map (fun r =>
    if r.is_current && !(present.contains r.file_name) then
      { r with is_current := false }
    else r)

/-- Embeds `refresh` (db_refresh.py lines 210-384) projected onto the
`pb_files` table: the loop, the mark pass over touched groups, and the
missing-file sweep. -/
def refresh (db : RefreshDB) (files : List RFile) (now : Nat)
    (last : Option Nat) : RefreshDB × List String :=
  let res := refreshLoop now last db.recs files db []
  let present := files.map (fun f => f.name)
  ({ res.1 with
      recs := sweepMissing present (markAll res.2 res.1.recs) }, res.2)

/-- Strict lexicographic order on `(file_mtime, id)` pairs. -/
def lexLtP (a b : Nat × Nat) : Prop := a.1 < b.1 ∨ (a.1 = b.1 ∧ a.2 < b.2)

/-- The `(file_mtime, id)` pairs of the rows of one group. -/
def gpairs (g : String) (recs : List PBRec) : List (Nat × Nat) :=
  (recs.filter (fun r => r.group_key == g)).map
    (fun r => (r.file_mtime, r.id))

/-- A marked group: a row of the group is current exactly when its
`(file_mtime, id)` pair strictly dominates every other pair of the
group. -/
def markedProp (g : String) (recs : List PBRec) : Prop :=
  ∀ r ∈ recs, r.group_key = g →
    (r.is_current = true ↔
      ∀ p ∈ gpairs g recs, p ≠ (r.file_mtime, r.id) →
        lexLtP p (r.file_mtime, r.id))

/-- The latest fold returns `none` only on the empty list with empty
accumulator. -/
theorem latestGo_none :
    ∀ (l : List PBRec) (acc : Option (Nat × Nat)),
      latestGo l acc = none → acc = none ∧ l = [] := by
  intro l
  induction l with
  | nil => intro acc h; exact ⟨h, rfl⟩
  | cons r rest ih =>
      intro acc h
      exfalso
      cases acc with
      | none =>
          simp only [latestGo] at h
          exact Option.noConfusion (ih _ h).1
      | some b =>
          obtain ⟨m, i⟩ := b
          simp only [latestGo] at h
          by_cases hgt : m < r.file_mtime ∨ (r.file_mtime = m ∧ i < r.id)
          · rw [if_pos hgt] at h
            exact Option.noConfusion (ih _ h).1
          · rw [if_neg hgt] at h
            exact Option.noConfusion (ih _ h).1

/-- Soundness of the latest fold: the result is attained (or inherited
from the accumulator), dominates every list element, and dominates the
accumulator. -/
theorem latestGo_sound :
    ∀ (l : List PBRec) (acc : Option (Nat × Nat)) (m i : Nat),
      latestGo l acc = some (m, i) →
      ((acc = some (m, i) ∨ ∃ r ∈ l, r.file_mtime = m ∧ r.id = i) ∧
       (∀ s ∈ l, s.file_mtime < m ∨ (s.file_mtime = m ∧ s.id ≤ i)) ∧
       (∀ m0 i0, acc = some (m0, i0) → m0 < m ∨ (m0 = m ∧ i0 ≤ i))) := by
  intro l
  induction l with
  | nil =>
      intro acc m i h
      refine ⟨Or.inl h, by simp, ?_⟩
      intro m0 i0 h0
      rw [h0] at h
      simp only [latestGo, Option.some.injEq, Prod.mk.injEq] at h
      right
      exact ⟨h.1, Nat.le_of_eq h.2⟩
  | cons r rest ih =>
      intro acc m i h
      simp only [latestGo] at h
      obtain ⟨A2, B2, C2⟩ := ih _ m i h
      have hrle : r.file_mtime < m ∨ (r.file_mtime = m ∧ r.id ≤ i) := by
        cases acc with
        | none => exact C2 r.file_mtime r.id rfl
        | some b =>
            obtain ⟨m0, i0⟩ := b
            by_cases hgt : m0 < r.file_mtime ∨ (r.file_mtime = m0 ∧ i0 < r.id)
            · exact C2 r.file_mtime r.id (if_pos hgt)
            · have h0 := C2 m0 i0 (if_neg hgt)
              omega
      refine ⟨?_, ?_, ?_⟩
      · rcases A2 with hA | ⟨s, hs, he⟩
        · cases hc : acc with
          | none =>
              rw [hc] at hA
              simp only [Option.some.injEq, Prod.mk.injEq] at hA
              exact Or.inr ⟨r, List.mem_cons_self r rest, hA.1, hA.2⟩
          | some b =>
              obtain ⟨m0, i0⟩ := b
              rw [hc] at hA
              by_cases hgt : m0 < r.file_mtime ∨ (r.file_mtime = m0 ∧ i0 < r.id)
              · rw [show (match some (m0, i0) with
                    | none => some (r.file_mtime, r.id)
                    | some (m0, i0) =>
                        if m0 < r.file_mtime ∨ (r.file_mtime = m0 ∧ i0 < r.id)
                        then some (r.file_mtime, r.id)
                        else some (m0, i0)) = some (r.file_mtime, r.id)
                  from if_pos hgt] at hA
                simp only [Option.some.injEq, Prod.mk.injEq] at hA
                exact Or.inr ⟨r, List.mem_cons_self r rest, hA.1, hA.2⟩
              · rw [show (match some (m0, i0) with
                    | none => some (r.file_mtime, r.id)
                    | some (m0, i0) =>
                        if m0 < r.file_mtime ∨ (r.file_mtime = m0 ∧ i0 < r.id)
                        then some (r.file_mtime, r.id)
                        else some (m0, i0)) = some (m0, i0)
                  from if_neg hgt] at hA
                exact Or.inl hA
        · exact Or.inr ⟨s, List.mem_cons_of_mem r hs, he⟩
      · intro s hs
        rcases List.mem_cons.mp hs with h1 | h1
        · rw [h1]; exact hrle
        · exact B2 s h1
      · intro m0 i0 h0
        by_cases hgt : m0 < r.file_mtime ∨ (r.file_mtime = m0 ∧ i0 < r.id)
        · have h1 := C2 r.file_mtime r.id (by simp only [h0]; rw [if_pos hgt])
          omega
        · exact C2 m0 i0 (by simp only [h0]; rw [if_neg hgt])

/-- Group pairs are stable under any row map preserving group key,
mtime and id. -/
theorem gpairs_map (h : String) (F : PBRec → PBRec)
    (hF : ∀ r, (F r).group_key = r.group_key ∧
      (F r).file_mtime = r.file_mtime ∧ (F r).id = r.id) :
    ∀ recs : List PBRec, gpairs h (recs.map F) = gpairs h recs := by
  intro recs
  induction recs with
  | nil => rfl
  | cons r t ih =>
      simp only [gpairs, List.map_cons, List.filter_cons, (hF r).1] at ih ⊢
      by_cases hg : (r.group_key == h) = true
      · simp only [hg, if_true, List.map_cons, (hF r).2.1, (hF r).2.2]
        rw [ih]
      · simp only [hg, Bool.false_eq_true, if_false]
        exact ih

/-- Row ids are stable under any id-preserving row map. -/
theorem ids_map (F : PBRec → PBRec) (hF : ∀ r, (F r).id = r.id)
    (recs : List PBRec) :
    (recs.map F).map (fun r => r.id) = recs.map (fun r => r.id) := by
  induction recs with
  | nil => rfl
  | cons r t ih => simp only [List.map_cons, hF r, ih]

/-- The field-preservation triple of the marking map. -/
theorem markF_fields (g : String) (lid : Nat) (r : PBRec) :
    ((if r.group_key == g then { r with is_current := r.id == lid }
      else r).group_key = r.group_key ∧
     (if r.group_key == g then { r with is_current := r.id == lid }
      else r).file_mtime = r.file_mtime ∧
     (if r.group_key == g then { r with is_current := r.id == lid }
      else r).id = r.id) := by
  split <;> exact ⟨rfl, rfl, rfl⟩

/-- Group pairs are stable under one marking pass. -/
theorem gpairs_mark (h g : String) (recs : List PBRec) :
    gpairs h (mark_group_current g recs) = gpairs h recs := by
  unfold mark_group_current
  split
  · rfl
  · exact gpairs_map h _ (fun r => markF_fields g _ r) recs

/-- Row ids are stable under one marking pass. -/
theorem ids_mark (g : String) (recs : List PBRec) :
    (mark_group_current g recs).map (fun r => r.id)
      = recs.map (fun r => r.id) := by
  unfold mark_group_current
  split
  · rfl
  · exact ids_map _ (fun r => (markF_fields g _ r).2.2) recs

/-- The field-preservation triple of the sweep map. -/
theorem sweepF_fields (present : List String) (r : PBRec) :
    ((if r.is_current && !(present.contains r.file_name) then
        { r with is_current := false } else r).group_key = r.group_key ∧
     (if r.is_current && !(present.contains r.file_name) then
        { r with is_current := false } else r).file_mtime = r.file_mtime ∧
     (if r.is_current && !(present.contains r.file_name) then
        { r with is_current := false } else r).id = r.id) := by
  split <;> exact ⟨rfl, rfl, rfl⟩

/-- Group pairs are stable under the missing-file sweep. -/
theorem gpairs_sweep (h : String) (present : List String)
    (recs : List PBRec) :
    gpairs h (sweepMissing present recs) = gpairs h recs :=
  gpairs_map h _ (fun r => sweepF_fields present r) recs

/-- Row ids are stable under the missing-file sweep. -/
theorem ids_sweep (present : List String) (recs : List PBRec) :
    (sweepMissing present recs).map (fun r => r.id)
      = recs.map (fun r => r.id) :=
  ids_map _ (fun r => (sweepF_fields present r).2.2) recs

/-- With pairwise distinct ids, rows are determined by their id. -/
theorem id_inj_of_nodup (recs : List PBRec)
    (hnd : (recs.map (fun r => r.id)).Nodup) :
    ∀ a ∈ recs, ∀ b ∈ recs, a.id = b.id → a = b := by
  intro a ha b hb he
  exact List.inj_on_of_nodup_map hnd ha hb he

/-- One marking pass establishes the marked-group property for its
group. -/
theorem mark_establishes (g : String) (recs : List PBRec)
    (hnd : (recs.map (fun r => r.id)).Nodup) :
    markedProp g (mark_group_current g recs) := by
  cases hl : latestGo (recs.filter (fun r => r.group_key == g)) none with
  | none =>
      have hempty := (latestGo_none _ _ hl).2
      have hmeq : mark_group_current g recs = recs := by
        unfold mark_group_current
        rw [hl]
      rw [hmeq]
      intro r hr hrg
      exfalso
      have hmem : r ∈ recs.filter (fun r => r.group_key == g) :=
        List.mem_filter.mpr ⟨hr, by simp [hrg]⟩
      rw [hempty] at hmem
      simp at hmem
  | some b =>
      obtain ⟨m, lid⟩ := b
      obtain ⟨hA, hB, _⟩ := latestGo_sound _ none m lid hl
      have hmeq : mark_group_current g recs = recs.map (fun r =>
          if r.group_key == g then { r with is_current := r.id == lid }
          else r) := by
        unfold mark_group_current
        rw [hl]
      rcases hA with h0 | hAex
      · exact Option.noConfusion h0
      obtain ⟨rm, hrmf, hrmm, hrmi⟩ := hAex
      have hrmr : rm ∈ recs := (List.mem_filter.mp hrmf).1
      rw [hmeq]
      have hgp : gpairs g (recs.map (fun r =>
          if r.group_key == g then { r with is_current := r.id == lid }
          else r)) = gpairs g recs :=
        gpairs_map g _ (fun r => markF_fields g lid r) recs
      intro r2 hr2 hr2g
      rw [hgp]
      obtain ⟨r, hr, hFr⟩ := List.mem_map.mp hr2
      by_cases hg2 : (r.group_key == g) = true
      · rw [if_pos hg2] at hFr
        rw [← hFr] at hr2g ⊢
        dsimp only at hr2g ⊢
        have hrfil : r ∈ recs.filter (fun r => r.group_key == g) :=
          List.mem_filter.mpr ⟨hr, by simp [hr2g]⟩
        constructor
        · intro hid
          have hideq : r.id = lid := by simpa using hid
          have hreqm : r = rm :=
            id_inj_of_nodup recs hnd r hr rm hrmr (by rw [hideq, hrmi])
          have hrm2 : r.file_mtime = m := by rw [hreqm, hrmm]
          intro p hp hpne
          simp only [gpairs] at hp
          obtain ⟨s, hs, hsp⟩ := List.mem_map.mp hp
          have hsb := hB s hs
          rw [← hsp] at hpne ⊢
          have hne2 : ¬(s.file_mtime = r.file_mtime ∧ s.id = r.id) :=
            fun hand => hpne (by rw [hand.1, hand.2])
          unfold lexLtP
          dsimp only
          omega
        · intro hmax
          have hp0 : (m, lid) ∈ gpairs g recs := by
            simp only [gpairs]
            exact List.mem_map.mpr ⟨rm, hrmf, by rw [hrmm, hrmi]⟩
          by_cases hpe : (m, lid) = (r.file_mtime, r.id)
          · have hre : r.id = lid := by
              have h2 := congrArg Prod.snd hpe
              simpa using h2.symm
            simp [hre]
          · have hlt := hmax (m, lid) hp0 hpe
            have hsb := hB r hrfil
            unfold lexLtP at hlt
            dsimp only at hlt
            omega
      · rw [if_neg hg2] at hFr
        rw [← hFr] at hr2g
        exact absurd (by simp [hr2g] : (r.group_key == g) = true) hg2

/-- One marking pass (of any group) preserves the marked-group
property of a group. -/
theorem mark_preserves (g g2 : String) (recs : List PBRec)
    (hnd : (recs.map (fun r => r.id)).Nodup)
    (hP : markedProp g recs) :
    markedProp g (mark_group_current g2 recs) := by
  by_cases hgg : g2 = g
  · rw [hgg]
    exact mark_establishes g recs hnd
  · cases hl : latestGo (recs.filter (fun r => r.group_key == g2)) none with
    | none =>
        have hmeq : mark_group_current g2 recs = recs := by
          unfold mark_group_current
          rw [hl]
        rw [hmeq]
        exact hP
    | some b =>
        obtain ⟨m, lid⟩ := b
        have hmeq : mark_group_current g2 recs = recs.map (fun r =>
            if r.group_key == g2 then { r with is_current := r.id == lid }
            else r) := by
          unfold mark_group_current
          rw [hl]
        rw [hmeq]
        have hgp : gpairs g (recs.map (fun r =>
            if r.group_key == g2 then { r with is_current := r.id == lid }
            else r)) = gpairs g recs :=
          gpairs_map g _ (fun r => markF_fields g2 lid r) recs
        intro r2 hr2 hr2g
        rw [hgp]
        obtain ⟨r, hr, hFr⟩ := List.mem_map.mp hr2
        by_cases hg2 : (r.group_key == g2) = true
        · rw [if_pos hg2] at hFr
          rw [← hFr] at hr2g
          dsimp only at hr2g
          exact absurd ((beq_iff_eq.mp hg2).symm.trans hr2g) hgg
        · rw [if_neg hg2] at hFr
          rw [← hFr] at hr2g ⊢
          exact hP r hr hr2g

/-- The mark loop preserves distinctness of ids. -/
theorem markAll_nodup (touched : List String) :
    ∀ recs : List PBRec, (recs.map (fun r => r.id)).Nodup →
      ((markAll touched recs).map (fun r => r.id)).Nodup := by
  induction touched with
  | nil => intro recs h; exact h
  | cons g t ih =>
      intro recs h
      exact ih _ (by rw [ids_mark]; exact h)

/-- The mark loop preserves the marked-group property of any group. -/
theorem markAll_preserves (g : String) (touched : List String) :
    ∀ recs : List PBRec, (recs.map (fun r => r.id)).Nodup →
      markedProp g recs → markedProp g (markAll touched recs) := by
  induction touched with
  | nil => intro recs h hP; exact hP
  | cons g2 t ih =>
      intro recs h hP
      exact ih _ (by rw [ids_mark]; exact h) (mark_preserves g g2 recs h hP)

/-- After the mark loop, every touched group satisfies the
marked-group property. -/
theorem markAll_establishes (touched : List String) :
    ∀ recs : List PBRec, (recs.map (fun r => r.id)).Nodup →
      ∀ g ∈ touched, markedProp g (markAll touched recs) := by
  induction touched with
  | nil => intro recs h g hg; simp at hg
  | cons g2 t ih =>
      intro recs h g hg
      rcases List.mem_cons.mp hg with h1 | h1
      · rw [h1]
        exact markAll_preserves g2 t _ (by rw [ids_mark]; exact h)
          (mark_establishes g2 recs h)
      · exact ih _ (by rw [ids_mark]; exact h) g h1

/-- Membership form of the `contains` test on string lists. -/
theorem contains_iff_mem_str (l : List String) (x : String) :
    l.contains x = true ↔ x ∈ l := by
  induction l with
  | nil => simp
  | cons a t ih =>
      simp only [List.contains_cons, Bool.or_eq_true, beq_iff_eq,
        List.mem_cons, ih]

/-- Every swept row comes from a marked row with the same identity
fields, current exactly when the original was current and its file is
present. -/
theorem sweep_mem (present : List String) (recs : List PBRec) :
    ∀ r2 ∈ sweepMissing present recs, ∃ r ∈ recs,
      r2.id = r.id ∧ r2.file_name = r.file_name ∧
      r2.file_mtime = r.file_mtime ∧ r2.group_key = r.group_key ∧
      r2.is_current = (r.is_current && present.contains r.file_name) := by
  intro r2 hr2
  obtain ⟨r, hr, hFr⟩ := List.mem_map.mp hr2
  refine ⟨r, hr, ?_⟩
  rw [← hFr]
  by_cases h1 : r.is_current = true
  · by_cases h2 : r.file_name ∈ present
    · simp [h1, h2]
    · simp [h1, h2]
  · have h1f : r.is_current = false := by simpa using h1
    simp [h1f]

/-- The new row built by `ingest_file` carries the next free id. -/
theorem ingestFileRec_id (db : RefreshDB) (now : Nat) (f : RFile)
    (rec : PBRec) (h : ingestFileRec db now f = .ok rec) :
    rec.id = db.nextId := by
  unfold ingestFileRec at h
  cases hp : parse_pb_rows f.rows with
  | error e => rw [hp] at h; exact Except.noConfusion h
  | ok pb =>
      rw [hp] at h
      dsimp only at h
      injection h with h2
      rw [← h2]

/-- Appending a row with the next free id keeps ids distinct and
bounded. -/
theorem append_id_nodup (recs : List PBRec) (rec : PBRec) (n : Nat)
    (hnd : (recs.map (fun r => r.id)).Nodup)
    (hbd : ∀ r ∈ recs, r.id < n) (hid : rec.id = n) :
    (((recs ++ [rec]).map (fun r => r.id)).Nodup ∧
     ∀ r ∈ recs ++ [rec], r.id < n + 1) := by
  constructor
  · rw [List.map_append]
    apply List.Nodup.append hnd (by simp)
    intro x hx hx2
    simp only [List.map_cons, List.map_nil, List.mem_singleton] at hx2
    obtain ⟨r, hr, he⟩ := List.mem_map.mp hx
    have := hbd r hr
    omega
  · intro r hr
    rcases List.mem_append.mp hr with h1 | h1
    · have := hbd r h1
      omega
    · simp only [List.mem_singleton] at h1
      rw [h1, hid]
      omega

/-- The refresh loop keeps row ids pairwise distinct and below the
next free id, whatever mix of inserts, skips and rollbacks occurs. -/
theorem refreshLoop_ids (now : Nat) (last : Option Nat) :
    ∀ (files : List RFile) (recs0 : List PBRec) (n0 : Nat)
      (db : RefreshDB) (touched : List String),
      (recs0.map (fun r => r.id)).Nodup → (∀ r ∈ recs0, r.id < n0) →
      n0 ≤ db.nextId →
      (db.recs.map (fun r => r.id)).Nodup →
      (∀ r ∈ db.recs, r.id < db.nextId) →
      (((refreshLoop now last recs0 files db touched).1.recs.map
        (fun r => r.id)).Nodup ∧
       ∀ r ∈ (refreshLoop now last recs0 files db touched).1.recs,
         r.id < (refreshLoop now last recs0 files db touched).1.nextId) := by
  intro files
  induction files with
  | nil => intro recs0 n0 db touched h0 h1 h2 h3 h4; exact ⟨h3, h4⟩
  | cons f rest ih =>
      intro recs0 n0 db touched h0 h1 h2 h3 h4
      rw [refreshLoop]
      by_cases hskip : skipOld last f.mtime = true
      · rw [if_pos hskip]
        exact ih recs0 n0 db touched h0 h1 h2 h3 h4
      · have hskipf : skipOld last f.mtime = false := by simpa using hskip
        rw [hskipf]
        simp only [Bool.false_eq_true, if_false]
        cases hing : ingestFileRec db now f with
        | error e =>
            dsimp only
            exact ih recs0 n0 ⟨recs0, db.nextId⟩ touched h0 h1 h2 h0
              (fun r hr => lt_of_lt_of_le (h1 r hr) h2)
        | ok rec =>
            dsimp only
            cases hone : oneOrNoneIdxP (isCurG rec.group_key) db.recs with
            | error u =>
                dsimp only
                exact ih recs0 n0 ⟨recs0, db.nextId⟩ touched h0 h1 h2 h0
                  (fun r hr => lt_of_lt_of_le (h1 r hr) h2)
            | ok oi =>
                cases oi with
                | none =>
                    dsimp only
                    obtain ⟨hn2, hb2⟩ := append_id_nodup db.recs rec
                      db.nextId h3 h4 (ingestFileRec_id db now f rec hing)
                    exact ih recs0 n0 ⟨db.recs ++ [rec], db.nextId + 1⟩
                      (touched ++ [rec.group_key]) h0 h1
                      (le_trans h2 (Nat.le_succ _)) hn2 hb2
                | some i =>
                    dsimp only
                    cases hgetp : db.recs[i]? with
                    | none =>
                        dsimp only
                        exact ih recs0 n0 ⟨recs0, db.nextId⟩ touched h0 h1 h2
                          h0 (fun r hr => lt_of_lt_of_le (h1 r hr) h2)
                    | some prev =>
                        dsimp only
                        by_cases hguard : rec.file_mtime ≤ prev.file_mtime ∧
                            prev.path = rec.path
                        · rw [if_pos hguard]
                          exact ih recs0 n0 db touched h0 h1 h2 h3 h4
                        · rw [if_neg hguard]
                          have hid2 : ({ rec with
                              supersedes_id := some prev.id } : PBRec).id
                              = db.nextId := by
                            dsimp only
                            exact ingestFileRec_id db now f rec hing
                          obtain ⟨hn2, hb2⟩ := append_id_nodup db.recs _
                            db.nextId h3 h4 hid2
                          exact ih recs0 n0
                            ⟨db.recs ++ [{ rec with
                              supersedes_id := some prev.id }],
                              db.nextId + 1⟩
                            (touched ++ [rec.group_key]) h0 h1
                            (le_trans h2 (Nat.le_succ _)) hn2 hb2

/-- Mark-then-sweep rule: over rows with distinct ids, after marking
the touched groups and sweeping missing files, a row of a touched
group is current exactly when its file is present and its
`(file_mtime, id)` pair strictly dominates every other row of the
group. -/
theorem marked_swept_rule (present : List String) (touched : List String)
    (L : List PBRec) (hnd : (L.map (fun r => r.id)).Nodup)
    (g : String) (hg : g ∈ touched)
    (r : PBRec) (hr : r ∈ sweepMissing present (markAll touched L))
    (hrg : r.group_key = g) :
    (r.is_current = true ↔
      (r.file_name ∈ present ∧
       ∀ s ∈ sweepMissing present (markAll touched L), s.group_key = g →
         s.id ≠ r.id →
         (s.file_mtime < r.file_mtime ∨
          (s.file_mtime = r.file_mtime ∧ s.id < r.id)))) := by
  have hMnd := markAll_nodup touched L hnd
  have hPm := markAll_establishes touched L hnd g hg
  have hSnd : ((sweepMissing present (markAll touched L)).map
      (fun r => r.id)).Nodup := by
    rw [ids_sweep]
    exact hMnd
  have hgpS : gpairs g (sweepMissing present (markAll touched L))
      = gpairs g (markAll touched L) := gpairs_sweep g present _
  obtain ⟨rm, hrm, hid, hname, hmt, hgk, hcur⟩ := sweep_mem present _ r hr
  have hrmg : rm.group_key = g := by rw [← hgk]; exact hrg
  have hPr := hPm rm hrm hrmg
  constructor
  · intro hc
    rw [hcur] at hc
    have hc2 : rm.is_current = true ∧ present.contains rm.file_name = true := by
      simpa using hc
    obtain ⟨hmc, hcont⟩ := hc2
    refine ⟨?_, ?_⟩
    · rw [hname]
      exact (contains_iff_mem_str present rm.file_name).mp hcont
    · intro s hs hsg hsid
      have hmax := hPr.mp hmc
      have hps : (s.file_mtime, s.id) ∈ gpairs g (markAll touched L) := by
        rw [← hgpS]
        simp only [gpairs]
        exact List.mem_map.mpr
          ⟨s, List.mem_filter.mpr ⟨hs, by simp [hsg]⟩, rfl⟩
      have hpne : (s.file_mtime, s.id) ≠ (rm.file_mtime, rm.id) := by
        intro he
        apply hsid
        have h2 := congrArg Prod.snd he
        dsimp only at h2
        rw [h2, hid]
      have hlt := hmax (s.file_mtime, s.id) hps hpne
      unfold lexLtP at hlt
      dsimp only at hlt
      omega
  · intro hand
    obtain ⟨hmem, hdom⟩ := hand
    rw [hcur]
    have hcont : present.contains rm.file_name = true :=
      (contains_iff_mem_str present rm.file_name).mpr (by rw [← hname]; exact hmem)
    have hmc : rm.is_current = true := by
      apply hPr.mpr
      intro p hp hpne
      have hp2 : p ∈ gpairs g (sweepMissing present (markAll touched L)) := by
        rw [hgpS]
        exact hp
      simp only [gpairs] at hp2
      obtain ⟨s, hsf, hsp⟩ := List.mem_map.mp hp2
      obtain ⟨hsS, hsgb⟩ := List.mem_filter.mp hsf
      have hsge : s.group_key = g := by simpa using hsgb
      have hsid : s.id ≠ r.id := by
        intro he
        have hse := id_inj_of_nodup _ hSnd s hsS r hr he
        apply hpne
        rw [← hsp, hse, hmt, hid]
      have hl := hdom s hsS hsge hsid
      rw [← hsp]
      unfold lexLtP
      dsimp only
      omega
    rw [hmc, hcont]
    rfl

/-- C8 (amended). Batch mark-current rule with the missing-file sweep:
starting from a table with pairwise-distinct ids below the next free
id, after a refresh every row of a touched group is current exactly
when its file name is among the present PB files and its
`(file_mtime, id)` pair strictly dominates (maximum `file_mtime`, ties
broken by highest `id`) every other row of the group.  In particular
non-maximal rows are never current, and the maximal row is current
only if its file is still on disk. -/
theorem refresh_touched_current_rule (db : RefreshDB) (files : List RFile)
    (now : Nat) (last : Option Nat)
    (hnd : (db.recs.map (fun r => r.id)).Nodup)
    (hbd : ∀ r ∈ db.recs, r.id < db.nextId)
    (g : String) (hg : g ∈ (refresh db files now last).2)
    (r : PBRec) (hr : r ∈ (refresh db files now last).1.recs)
    (hrg : r.group_key = g) :
    (r.is_current = true ↔
      (r.file_name ∈ files.map (fun f => f.name) ∧
       ∀ s ∈ (refresh db files now last).1.recs, s.group_key = g →
         s.id ≠ r.id →
         (s.file_mtime < r.file_mtime ∨
          (s.file_mtime = r.file_mtime ∧ s.id < r.id)))) := by
  have hL := refreshLoop_ids now last files db.recs db.nextId db [] hnd hbd
    (Nat.le_refl _) hnd hbd
  have hre : (refresh db files now last).1.recs =
      sweepMissing (files.map (fun f => f.name))
        (markAll (refreshLoop now last db.recs files db []).2
          (refreshLoop now last db.recs files db []).1.recs) := rfl
  have hg2 : g ∈ (refreshLoop now last db.recs files db []).2 := hg
  rw [hre] at hr ⊢
  exact marked_swept_rule (files.map (fun f => f.name))
    (refreshLoop now last db.recs files db []).2
    (refreshLoop now last db.recs files db []).1.recs hL.1 g hg2 r hr hrg

/-- Tokenized content of the PL/Warsaw scenario files. -/
def rowsPL : List (List String) :=
  [["meta"], ["key", "value"], ["country", "PL"], ["unit", "Warsaw"]]

/-- Refresh witness database: empty table. -/
def dbW : RefreshDB := ⟨[], 1⟩

/-- Refresh witness files: two versions of the same group, the older
name carrying the newer mtime. -/
def filesW : List RFile := [⟨"a.pb", rowsPL, 10⟩, ⟨"b.pb", rowsPL, 5⟩]

/-- The maximal-mtime row of the witness group after the refresh. -/
def RW : PBRec :=
  ⟨1, "a.pb", pbPath "a.pb", "PL_Warsaw", "pl|warsaw||", 10, 1, true, none⟩

/-- Witness for `refresh_touched_current_rule`: in a two-file refresh
of one group both hypotheses hold, and the rule applied to the
maximal current row confirms its file is among the present ones. -/
theorem refresh_touched_current_witness :
    ((dbW.recs.map (fun r => r.id)).Nodup ∧
     (∀ r ∈ dbW.recs, r.id < dbW.nextId) ∧
     "pl|warsaw||" ∈ (refresh dbW filesW 1 none).2 ∧
     RW ∈ (refresh dbW filesW 1 none).1.recs ∧
     RW.group_key = "pl|warsaw||" ∧ RW.is_current = true) ∧
    RW.file_name ∈ filesW.map (fun f => f.name) :=
  ⟨⟨by decide, by decide, by decide, by decide, by decide, by decide⟩,
    ((refresh_touched_current_rule dbW filesW 1 none (by decide) (by decide)
      "pl|warsaw||" (by decide) RW (by decide) (by decide)).mp (by decide)).1⟩

/-- C8 counterexample to the claim as stated: the group is touched by
the refresh, its maximal-mtime row is the stale `a.pb` row (mtime 10)
whose file has disappeared, and after the refresh the missing-file
sweep has flipped it, so no row of the touched group is current — in
particular the maximum-mtime row is not current. -/
theorem refresh_mark_counterexample :
    ((refresh ⟨[⟨1, "a.pb", pbPath "a.pb", "PL_Warsaw", "pl|warsaw||", 10, 0,
        true, none⟩], 2⟩ [⟨"b.pb", rowsPL, 5⟩] 1 none).2 = ["pl|warsaw||"] ∧
     ((refresh ⟨[⟨1, "a.pb", pbPath "a.pb", "PL_Warsaw", "pl|warsaw||", 10, 0,
        true, none⟩], 2⟩ [⟨"b.pb", rowsPL, 5⟩] 1 none).1.recs.map
        (fun r => (r.id, r.file_mtime, r.is_current)))
      = [(1, 10, false), (2, 5, false)]) := by
  decide
